import Mathlib

/-!
# masterbot: schedule store and recommendation pipeline

A shallow embedding of `src/src/Schedule.cpp`, `src/src/Preferences.cpp` and of the
recommendation pipeline, the scoring functions and the interest reinforcement of
`src/src/RecommendationEngine.cpp`.

Modelling conventions

* `std::chrono::system_clock::time_point` is a tick count; it is an `Int` here and only
  ever compared, never added to.
* `std::vector<T>` is `List T`; `push_back` appends at the end.
* `std::sort` is specified by the C++ standard only up to its contract (the result is a
  permutation of the input, ordered with respect to the comparator; equal elements come in
  an unspecified order).  Functions that call it take the sorting routine as a parameter
  `sortFn` and theorems assume `StdSortContract sortFn`.  `referenceSort` is one routine
  that meets the contract.
* `double` scores: `recommendEvents` takes `calculateEventScore` as a parameter with
  values in any linearly ordered type, so the ranking results hold for every scoring
  function whose values are totally ordered (finite doubles are).  The scoring functions
  themselves are computed in exact rational arithmetic: the decimal literals of the
  source are the rationals they denote, and the rounding of IEEE doubles is not modelled.
* `std::localtime` depends on the time zone of the process; the hour it yields for a
  time point is the parameter `localHour`.
* `int` values are `Int`; the one `int` addition of the source, `current_weight + 1`, is
  reduced to the 32-bit range by `wrapInt`.
* `std::string` is `String`, one `Char` standing for one `char`.
* The reasoning collaborator is represented by what it does during one call of
  `recommendEvents` (`FutureOutcome`): the call that creates the `std::future` throws, or
  `get()` on the future yields an `AIResponse`, throws an exception derived from
  `std::exception`, or throws any other object.  `recommendEvents` returns `some` list
  when it returns and `none` when an exception leaves it.
-/

namespace Masterbot

/-! ## Data model -/

/-- The class `Event` of `include/Event.h`. -/
structure Event where
  name : String
  description : String
  start_time : Int
  end_time : Int
  location : String
  tags : List String
  deriving DecidableEq, Repr

/-- The class `Preferences` of `include/Preferences.h`; `interests` is the
`unordered_map<string, int>` as an association list. -/
structure Preferences where
  interests : List (String × Int)
  preferred_time_slots : List (Int × Int)
  max_travel_distance : Rat
  user_location : String
  deriving DecidableEq, Repr

/-- The class `User` of `include/User.h`. -/
structure User where
  name : String
  email : String
  preferences : Preferences
  deriving DecidableEq, Repr

/-- The class `Schedule` of `include/Schedule.h`: the vector `events_`. -/
structure Schedule where
  events : List Event
  deriving DecidableEq, Repr

/-- The struct `AIService::AIResponse`. -/
structure AIResponse where
  success : Bool
  content : String
  error_message : String
  deriving DecidableEq, Repr

/-- What the reasoning collaborator does during one call of `recommendEvents`.
`value result`: `ai_response.get()` returns `result`.  `exception`: `get()` throws an
exception derived from `std::exception`.  `foreignException`: `get()` throws an object of
a type not derived from `std::exception`.  `callThrows`: the call
`ai_service_->recommendEvents(...)`, which stands before the try block, throws and no
future is obtained. -/
inductive FutureOutcome where
  | value (result : AIResponse)
  | exception
  | foreignException
  | callThrows
  deriving DecidableEq, Repr

/-- Whether the outcome leaves `recommendEvents` as an exception: the only handler is
`catch (const std::exception&)` around `get()`, so an object of another type thrown by
`get()` and anything thrown by the call before the try block propagate to the caller. -/
def FutureOutcome.propagates : FutureOutcome → Bool
  | .value _ => false
  | .exception => false
  | .foreignException => true
  | .callThrows => true

/-- The struct `RecommendationEngine::EventRecommendation`, with the score type `S`
standing for `double`. -/
structure EventRecommendation (S : Type) where
  event : Event
  score : S
  reasoning : String

/-! ## std::sort -/

/-- Type of a sorting routine taking a comparator, as `std::sort(first, last, comp)`. -/
abbrev SortFn : Type 1 := (α : Type) → (α → α → Bool) → List α → List α

/-- The requirement the C++ standard puts on a comparator: a strict weak ordering
(asymmetric and negatively transitive). -/
def StrictWeakOrdering {α : Type} (comp : α → α → Bool) : Prop :=
  (∀ a b, comp a b = true → comp b a = false) ∧
  (∀ a b c, comp a c = true → comp a b = true ∨ comp b c = true)

/-- The contract of `std::sort` for a comparator that is a strict weak ordering: the
result is a rearrangement of the input in which no later element compares before an
earlier one.  Nothing is said about the order of equivalent elements. -/
structure StdSortContract (sortFn : SortFn) : Prop where
  perm : ∀ (α : Type) (comp : α → α → Bool) (l : List α),
    StrictWeakOrdering comp → (sortFn α comp l).Perm l
  sorted : ∀ (α : Type) (comp : α → α → Bool) (l : List α),
    StrictWeakOrdering comp → (sortFn α comp l).Pairwise (fun a b => comp b a = false)

/-- One sorting routine meeting `StdSortContract`: insertion sort. -/
def referenceSort : SortFn :=
  fun _ comp l => l.insertionSort (fun a b => comp b a = false)

/-! ## Schedule (src/src/Schedule.cpp) -/

/-- The constructor `Schedule::Schedule()`: no events. -/
def Schedule.empty : Schedule := ⟨[]⟩

/-- The accessor `Schedule::getEvents`. -/
def Schedule.getEvents (s : Schedule) : List Event := s.events

/-- The comparator lambda of `Schedule::addEvent`. -/
def startsBefore (a b : Event) : Bool := decide (a.start_time < b.start_time)

/-- The method `Schedule::addEvent`: `push_back`, then `std::sort` by start time. -/
def Schedule.addEvent (sortFn : SortFn) (s : Schedule) (event : Event) : Schedule :=
  ⟨sortFn Event startsBefore (s.events ++ [event])⟩

/-- The method `Schedule::removeEvent`: erase-remove of every event whose name is `event_name`. -/
def Schedule.removeEvent (s : Schedule) (event_name : String) : Schedule :=
  ⟨s.events.filter (fun e => !(e.name == event_name))⟩

/-- The loop of `Schedule::getEventsInRange` over the remaining stored events, with the
vector `result` built so far. -/
def getEventsInRangeLoop (start end_ : Int) : List Event → List Event → List Event
  | [], result => result
  | event :: rest, result =>
    if event.start_time ≥ start ∧ event.end_time ≤ end_ then
      getEventsInRangeLoop start end_ rest (result ++ [event])
    else getEventsInRangeLoop start end_ rest result

/-- The method `Schedule::getEventsInRange`. -/
def Schedule.getEventsInRange (s : Schedule) (start end_ : Int) : List Event :=
  getEventsInRangeLoop start end_ s.events []

/-- The loop of `Schedule::hasConflict` over the remaining stored events. -/
def hasConflictLoop (event : Event) : List Event → Bool
  | [] => false
  | existing_event :: rest =>
    if event.start_time < existing_event.end_time ∧
        event.end_time > existing_event.start_time then true
    else hasConflictLoop event rest

/-- The method `Schedule::hasConflict`. -/
def Schedule.hasConflict (s : Schedule) (event : Event) : Bool :=
  hasConflictLoop event s.events

/-- The loop of `Schedule::getFreeTimeSlots` over the remaining stored events, threading
`current_time` and `free_slots`; it returns both when the loop ends or breaks. -/
def freeSlotsLoop (start end_ : Int) :
    List Event → Int → List (Int × Int) → Int × List (Int × Int)
  | [], current_time, free_slots => (current_time, free_slots)
  | event :: rest, current_time, free_slots =>
    if event.start_time ≥ end_ then (current_time, free_slots)
    else if event.end_time ≤ start then freeSlotsLoop start end_ rest current_time free_slots
    else
      freeSlotsLoop start end_ rest (max current_time event.end_time)
        (if current_time < event.start_time then
          free_slots ++ [(current_time, event.start_time)]
        else free_slots)

/-- The method `Schedule::getFreeTimeSlots`. -/
def Schedule.getFreeTimeSlots (s : Schedule) (start end_ : Int) : List (Int × Int) :=
  let r := freeSlotsLoop start end_ s.events start []
  if r.1 < end_ then r.2 ++ [(r.1, end_)] else r.2

/-- A call on a `Schedule` object that changes it. -/
inductive ScheduleOp where
  | addEvent (event : Event)
  | removeEvent (event_name : String)
  deriving DecidableEq, Repr

/-- One mutating call applied to a schedule. -/
def Schedule.applyOp (sortFn : SortFn) (s : Schedule) : ScheduleOp → Schedule
  | .addEvent event => s.addEvent sortFn event
  | .removeEvent event_name => s.removeEvent event_name

/-- A sequence of mutating calls, applied in order to a freshly constructed schedule. -/
def Schedule.runOps (sortFn : SortFn) (ops : List ScheduleOp) : Schedule :=
  ops.foldl (Schedule.applyOp sortFn) Schedule.empty

/-! ## RecommendationEngine::recommendEvents (src/src/RecommendationEngine.cpp) -/

/-- Width of `size_t`, in bits. -/
def SIZE_BITS : Nat := 64

/-- Largest value of `int`. -/
def INT_MAX : Int := 2147483647

/-- Smallest value of `int`. -/
def INT_MIN : Int := -2147483648

/-- The implicit conversion of an `int` to `size_t` (reduction modulo `2^64`), applied to
`max_recommendations` in `recommendations.size() > max_recommendations` and in
`recommendations.resize(max_recommendations)`. -/
def toSizeT (n : Int) : Nat := (n % (2 : Int) ^ SIZE_BITS).toNat

/-- The first loop of `recommendEvents`: candidates in conflict with the schedule are
skipped, every other one is scored and appended with the placeholder reasoning. -/
def collectRecommendations {S : Type} (calculateEventScore : Event → Preferences → S)
    (preferences : Preferences) (user_schedule : Schedule) :
    List Event → List (EventRecommendation S)
  | [] => []
  | event :: rest =>
    if user_schedule.hasConflict event then
      collectRecommendations calculateEventScore preferences user_schedule rest
    else
      ⟨event, calculateEventScore event preferences, "Basic compatibility score"⟩ ::
        collectRecommendations calculateEventScore preferences user_schedule rest

/-- The comparator lambda of `recommendEvents`: `a.score > b.score`. -/
def scoreGreater {S : Type} [LinearOrder S] (a b : EventRecommendation S) : Bool :=
  decide (a.score > b.score)

/-- The truncation step of `recommendEvents`: `size() > max_recommendations` compares in
`size_t`, and `resize` to a smaller size keeps the leading elements. -/
def truncateRecommendations {α : Type} (recommendations : List α)
    (max_recommendations : Int) : List α :=
  if recommendations.length > toSizeT max_recommendations then
    recommendations.take (toSizeT max_recommendations)
  else recommendations

/-- The collaborator call and the try block of `recommendEvents`.  On a successful
response every recommendation gets the same reasoning text, built from the first 100
characters of the content; on an unsuccessful response and on a caught exception the
list is left as it is; `none` stands for an exception that leaves the function. -/
def applyEnrichment {S : Type} (ai_response : FutureOutcome)
    (recommendations : List (EventRecommendation S)) :
    Option (List (EventRecommendation S)) :=
  match ai_response with
  | .callThrows => none
  | .value result =>
    if result.success then
      some (recommendations.map
        (fun rec => ⟨rec.event, rec.score, "AI-enhanced reasoning: " ++ result.content.take 100⟩))
    else some recommendations
  | .exception => some recommendations
  | .foreignException => none

/-- The method `RecommendationEngine::recommendEvents`.  `sortFn` is `std::sort`,
`calculateEventScore` the scoring member function, `ai_response` what the reasoning
collaborator does.  The value is `some` of the returned vector, or `none` when an
exception propagates to the caller. -/
def recommendEvents {S : Type} [LinearOrder S] (sortFn : SortFn)
    (calculateEventScore : Event → Preferences → S) (ai_response : FutureOutcome)
    (user : User) (available_events : List Event) (user_schedule : Schedule)
    (max_recommendations : Int) : Option (List (EventRecommendation S)) :=
  let preferences := user.preferences
  let recommendations :=
    collectRecommendations calculateEventScore preferences user_schedule available_events
  let recommendations := sortFn (EventRecommendation S) scoreGreater recommendations
  let recommendations := truncateRecommendations recommendations max_recommendations
  applyEnrichment ai_response recommendations

/-! ## Preferences (src/src/Preferences.cpp) -/

/-- The assignment `interests_[interest] = weight` on the map: the entry of an existing key
is overwritten, a new key gets a fresh entry. -/
def assignInterest (interests : List (String × Int)) (interest : String) (weight : Int) :
    List (String × Int) :=
  if (interests.lookup interest).isSome then
    interests.map (fun kv => if kv.1 == interest then (kv.1, weight) else kv)
  else interests ++ [(interest, weight)]

/-- The method `Preferences::addInterest`. -/
def Preferences.addInterest (p : Preferences) (interest : String) (weight : Int) :
    Preferences :=
  { p with interests := assignInterest p.interests interest weight }

/-- The method `Preferences::removeInterest`. -/
def Preferences.removeInterest (p : Preferences) (interest : String) : Preferences :=
  { p with interests := p.interests.filter (fun kv => !(kv.1 == interest)) }

/-- The method `Preferences::setInterestWeight`: the assignment happens only if `find`
locates the key. -/
def Preferences.setInterestWeight (p : Preferences) (interest : String) (weight : Int) :
    Preferences :=
  if (p.interests.lookup interest).isSome then
    { p with interests := assignInterest p.interests interest weight }
  else p

/-- The method `Preferences::getInterestWeight`. -/
def Preferences.getInterestWeight (p : Preferences) (interest : String) : Int :=
  match p.interests.lookup interest with
  | some weight => weight
  | none => 0

/-- The method `Preferences::setPreferredTimeSlots`. -/
def Preferences.setPreferredTimeSlots (p : Preferences) (time_slots : List (Int × Int)) :
    Preferences :=
  { p with preferred_time_slots := time_slots }

/-! ## Scoring (src/src/RecommendationEngine.cpp) -/

/-- The loop of `calculateInterestScore` over the remaining tags, threading `total_score`
and `matching_tags`. -/
def interestScoreLoop (interests : List (String × Int)) : List String → Rat → Int → Rat × Int
  | [], total_score, matching_tags => (total_score, matching_tags)
  | tag :: rest, total_score, matching_tags =>
    match interests.lookup tag with
    | some weight => interestScoreLoop interests rest (total_score + weight) (matching_tags + 1)
    | none => interestScoreLoop interests rest total_score matching_tags

/-- The method `RecommendationEngine::calculateInterestScore`. -/
def calculateInterestScore (event : Event) (preferences : Preferences) : Rat :=
  let r := interestScoreLoop preferences.interests event.tags 0 0
  if r.2 > 0 then r.1 / r.2 else 0

/-- The loop of `calculateTimePreferenceScore` over the remaining time slots, with the
`return 0.5` that follows it. -/
def timeSlotLoop (hour : Int) : List (Int × Int) → Rat
  | [] => 0.5
  | slot :: rest =>
    if hour ≥ slot.1 ∧ hour ≤ slot.2 then 1.0 else timeSlotLoop hour rest

/-- The method `RecommendationEngine::calculateTimePreferenceScore`; `localHour` gives
`tm_hour` of `std::localtime` for a time point. -/
def calculateTimePreferenceScore (localHour : Int → Int) (event : Event)
    (preferences : Preferences) : Rat :=
  let hour := localHour event.start_time
  if preferences.preferred_time_slots.isEmpty then 1.0
  else timeSlotLoop hour preferences.preferred_time_slots

/-- The method `RecommendationEngine::calculateLocationScore`. -/
def calculateLocationScore (event : Event) (preferences : Preferences) : Rat :=
  if event.location.isEmpty || preferences.user_location.isEmpty then 0.8 else 1.0

/-- The method `RecommendationEngine::calculateEventScore`. -/
def calculateEventScore (localHour : Int → Int) (event : Event) (preferences : Preferences) :
    Rat :=
  let interest_score := calculateInterestScore event preferences
  let time_score := calculateTimePreferenceScore localHour event preferences
  let location_score := calculateLocationScore event preferences
  (interest_score * 0.5) + (time_score * 0.3) + (location_score * 0.2)

/-! ## RecommendationEngine::updateUserInterests -/

/-- Reduction of an integer to the range of a 32-bit `int` (two's complement). -/
def wrapInt (n : Int) : Int := (n + 2147483648) % 4294967296 - 2147483648

/-- The inner loop of `updateUserInterests` over the remaining tags of one event. -/
def updateTagsLoop (preferences : Preferences) : List String → Preferences
  | [] => preferences
  | tag :: rest =>
    let current_weight := preferences.getInterestWeight tag
    updateTagsLoop (preferences.setInterestWeight tag (wrapInt (current_weight + 1))) rest

/-- The outer loop of `updateUserInterests` over the remaining attended events. -/
def updateEventsLoop (preferences : Preferences) : List Event → Preferences
  | [] => preferences
  | event :: rest => updateEventsLoop (updateTagsLoop preferences event.tags) rest

/-- The method `RecommendationEngine::updateUserInterests`; the user it mutates is
returned. -/
def updateUserInterests (user : User) (attended_events : List Event) : User :=
  { user with preferences := updateEventsLoop user.preferences attended_events }

/-! ## Auxiliary definitions -/

/-- The free slots `getFreeTimeSlots` still has to emit when its loop is about to visit
`events` with the cursor at `current_time`, closing gap included; it is the loop of
`freeSlotsLoop` without the accumulator. -/
def remainingSlots (start end_ : Int) : List Event → Int → List (Int × Int)
  | [], current_time => if current_time < end_ then [(current_time, end_)] else []
  | event :: rest, current_time =>
    if event.start_time ≥ end_ then
      (if current_time < end_ then [(current_time, end_)] else [])
    else if event.end_time ≤ start then remainingSlots start end_ rest current_time
    else
      (if current_time < event.start_time then [(current_time, event.start_time)] else []) ++
        remainingSlots start end_ rest (max current_time event.end_time)

/-- The weights `preferences.interests[tag]` of the tags of the event that are keys of
`interests`, one entry for each occurrence of such a tag, in tag order. -/
def matchingWeights (event : Event) (preferences : Preferences) : List Int :=
  event.tags.filterMap (fun tag => preferences.interests.lookup tag)

/-- The interest score as the specification words it: the arithmetic mean of the matching
weights, and 0 when no tag of the event is a key. -/
def interestScoreSpec (event : Event) (preferences : Preferences) : Rat :=
  if matchingWeights event preferences = [] then 0
  else ((matchingWeights event preferences).sum : Rat) /
    ((matchingWeights event preferences).length : Rat)

/-- The time score as the specification words it, for the local start hour `h`. -/
def timeScoreSpec (h : Int) (time_windows : List (Int × Int)) : Rat :=
  if time_windows = [] then 1.0
  else if ∃ window ∈ time_windows, window.1 ≤ h ∧ h ≤ window.2 then 1.0
  else 0.5

/-- Number of occurrences of a tag, with multiplicity, across the tag lists of all
attended events. -/
def tagOccurrences (tag : String) (attended_events : List Event) : Nat :=
  (attended_events.map (fun event => event.tags.count tag)).sum

/-- An event with the given name and time interval, no description, location or tags. -/
def mkEvent (name : String) (start_time end_time : Int) : Event :=
  ⟨name, "", start_time, end_time, "", []⟩

/-- Sample event 09:00 to 10:00, in hours. -/
def standup : Event := mkEvent "standup" 9 10

/-- Sample event 10:00 to 12:00, starting when `standup` ends. -/
def review : Event := mkEvent "review" 10 12

/-- Sample event 11:00 to 13:00, overlapping `review`. -/
def lunch : Event := mkEvent "lunch" 11 13

/-- Sample event 15:00 to 16:00. -/
def demo : Event := mkEvent "demo" 15 16

/-- Sample schedule holding `standup` and `lunch`, in start order. -/
def sampleSchedule : Schedule := ⟨[standup, lunch]⟩

/-- Sample user without interests or time windows. -/
def sampleUser : User := ⟨"ann", "ann@example.org", ⟨[], [], 10, ""⟩⟩

/-- Sample scoring function: the length of the event in ticks. -/
def durationScore (event : Event) (_ : Preferences) : Int :=
  event.end_time - event.start_time

/-- Sample clock: time points count hours and the local hour is the hour of the day. -/
def hourOfDay (t : Int) : Int := t % 24

/-- Preferences of the end-to-end scenario: interest music with weight 5, the time window
18 to 23, home location SF. -/
def scenarioPreferences : Preferences := ⟨[("music", 5)], [(18, 23)], 10, "SF"⟩

/-- User of the end-to-end scenario. -/
def scenarioUser : User := ⟨"sam", "sam@example.org", scenarioPreferences⟩

/-- EventA of the end-to-end scenario: tagged music, starting at hour 19, located in SF. -/
def eventA : Event := ⟨"EventA", "", 19, 21, "SF", ["music"]⟩

/-- EventB of the end-to-end scenario: tagged sports, starting at hour 10, no location. -/
def eventB : Event := ⟨"EventB", "", 10, 11, "", ["sports"]⟩

/-- Sample preferences whose interest weights are 0 or 1. -/
def unitPreferences : Preferences := ⟨[("music", 1), ("sports", 0)], [(18, 23)], 10, "SF"⟩

/-- Sample attended event whose only tag is jazz. -/
def jazzNight : Event := ⟨"jazz night", "", 20, 22, "", ["jazz"]⟩

/-- Sample user whose interests hold jazz with weight 2. -/
def jazzFan : User := ⟨"joe", "joe@example.org", ⟨[("jazz", 2)], [], 10, ""⟩⟩

/-- Sample event tagged jazz twice and music once. -/
def festival : Event := ⟨"festival", "", 30, 40, "SF", ["jazz", "music", "jazz"]⟩

/-- Sample preferences with the interests jazz: 2 and music: 5 and a window over midnight. -/
def nightOwl : Preferences := ⟨[("jazz", 2), ("music", 5)], [(22, 2)], 10, "SF"⟩

/-- Sample user whose interest jazz already has the largest `int` weight. -/
def maxedFan : User := ⟨"max", "max@example.org", ⟨[("jazz", 2147483647)], [], 10, ""⟩⟩

/-! ## Facts about the sorting contract -/

theorem strictWeak_startsBefore : StrictWeakOrdering startsBefore := by
  refine ⟨fun a b h => ?_, fun a b c h => ?_⟩
  · simp only [startsBefore, decide_eq_true_eq, decide_eq_false_iff_not] at *
    omega
  · simp only [startsBefore, decide_eq_true_eq] at *
    omega

theorem strictWeak_scoreGreater {S : Type} [LinearOrder S] :
    StrictWeakOrdering (scoreGreater : EventRecommendation S → EventRecommendation S → Bool) := by
  refine ⟨fun a b h => ?_, fun a b c h => ?_⟩
  · simp only [scoreGreater, decide_eq_true_eq, decide_eq_false_iff_not, gt_iff_lt,
      not_lt] at *
    exact le_of_lt h
  · simp only [scoreGreater, decide_eq_true_eq, gt_iff_lt] at *
    rcases lt_or_le b.score a.score with hb | hb
    · exact Or.inl hb
    · exact Or.inr (lt_of_lt_of_le h hb)

theorem referenceSort_contract : StdSortContract referenceSort := by
  constructor
  · intro α comp l _
    exact List.perm_insertionSort _ l
  · intro α comp l h
    haveI : IsTotal α (fun a b => comp b a = false) := ⟨fun a b => by
      cases hab : comp a b
      · exact Or.inr rfl
      · exact Or.inl (h.1 a b hab)⟩
    haveI : IsTrans α (fun a b => comp b a = false) := ⟨fun a b c hab hbc => by
      cases hca : comp c a
      · rfl
      · rcases h.2 c b a hca with h1 | h1
        · rw [h1] at hbc; cases hbc
        · rw [h1] at hab; cases hab⟩
    exact List.sorted_insertionSort (fun a b => comp b a = false) l

theorem sort_singleton {sortFn : SortFn} (hs : StdSortContract sortFn) {α : Type}
    (comp : α → α → Bool) (hc : StrictWeakOrdering comp) (a : α) :
    sortFn α comp [a] = [a] :=
  List.perm_singleton.mp (hs.perm α comp [a] hc)

/-! ## Schedule.hasConflict -/

theorem hasConflictLoop_iff (event : Event) (events : List Event) :
    hasConflictLoop event events = true ↔
      ∃ x ∈ events, event.start_time < x.end_time ∧ event.end_time > x.start_time := by
  induction events with
  | nil => simp [hasConflictLoop]
  | cons x rest ih =>
    unfold hasConflictLoop
    by_cases h : event.start_time < x.end_time ∧ event.end_time > x.start_time
    · simp only [h, and_self, if_true, List.mem_cons, exists_eq_or_imp, true_or]
    · rw [if_neg h, ih]
      simp only [List.mem_cons, exists_eq_or_imp, h, false_or]

/-- C1: `hasConflict(e)` is true exactly when some stored event `x` has
`e.start < x.end` and `e.end > x.start`, for every schedule and every event. -/
theorem hasConflict_iff_exists_overlap (s : Schedule) (e : Event) :
    s.hasConflict e = true ↔
      ∃ x ∈ s.getEvents, e.start_time < x.end_time ∧ e.end_time > x.start_time :=
  hasConflictLoop_iff e s.events

theorem hasConflict_single {sortFn : SortFn} (hs : StdSortContract sortFn) (a b : Event) :
    (Schedule.empty.addEvent sortFn a).hasConflict b =
      decide (b.start_time < a.end_time ∧ b.end_time > a.start_time) := by
  have h1 : (Schedule.empty.addEvent sortFn a).events = [a] := by
    simp only [Schedule.addEvent, Schedule.empty, List.nil_append]
    exact sort_singleton hs startsBefore strictWeak_startsBefore a
  unfold Schedule.hasConflict
  rw [h1]
  by_cases h : b.start_time < a.end_time ∧ b.end_time > a.start_time
  · simp [hasConflictLoop, h]
  · simp only [hasConflictLoop, h, if_false, decide_False]

/-- C2: conflict symmetry. For any two events `A` and `B`, the schedule obtained by adding
only `A` reports a conflict for `B` exactly when the schedule obtained by adding only `B`
reports a conflict for `A`. -/
theorem hasConflict_symmetric (sortFn : SortFn) (hs : StdSortContract sortFn) (A B : Event) :
    (Schedule.empty.addEvent sortFn A).hasConflict B =
      (Schedule.empty.addEvent sortFn B).hasConflict A := by
  rw [hasConflict_single hs, hasConflict_single hs]
  apply decide_eq_decide.mpr
  constructor <;> intro h <;> exact ⟨h.2, h.1⟩

/-- C3: boundary non-conflict. When `A.end == B.start`, the schedule holding only `A`
reports no conflict for `B`, and the schedule holding only `B` reports none for `A`. -/
theorem hasConflict_boundary (sortFn : SortFn) (hs : StdSortContract sortFn) (A B : Event)
    (h : A.end_time = B.start_time) :
    (Schedule.empty.addEvent sortFn A).hasConflict B = false ∧
      (Schedule.empty.addEvent sortFn B).hasConflict A = false := by
  rw [hasConflict_single hs, hasConflict_single hs]
  simp only [decide_eq_false_iff_not, not_and, gt_iff_lt, not_lt]
  constructor <;> intro _ <;> omega

theorem hasConflict_symmetric_witness :
    StdSortContract referenceSort ∧
      (Schedule.empty.addEvent referenceSort review).hasConflict lunch =
        (Schedule.empty.addEvent referenceSort lunch).hasConflict review :=
  ⟨referenceSort_contract, hasConflict_symmetric referenceSort referenceSort_contract review lunch⟩

theorem hasConflict_boundary_witness :
    StdSortContract referenceSort ∧ standup.end_time = review.start_time ∧
      ((Schedule.empty.addEvent referenceSort standup).hasConflict review = false ∧
        (Schedule.empty.addEvent referenceSort review).hasConflict standup = false) :=
  ⟨referenceSort_contract, by decide,
    hasConflict_boundary referenceSort referenceSort_contract standup review (by decide)⟩

/-! ## Sorted invariant -/

theorem addEvent_sorted {sortFn : SortFn} (hs : StdSortContract sortFn) (s : Schedule)
    (e : Event) :
    (s.addEvent sortFn e).events.Pairwise (fun a b => a.start_time ≤ b.start_time) := by
  have h := hs.sorted Event startsBefore (s.events ++ [e]) strictWeak_startsBefore
  refine h.imp ?_
  intro a b hab
  simpa [startsBefore] using hab

theorem removeEvent_sorted (s : Schedule) (event_name : String)
    (h : s.events.Pairwise (fun a b => a.start_time ≤ b.start_time)) :
    (s.removeEvent event_name).events.Pairwise (fun a b => a.start_time ≤ b.start_time) :=
  h.filter _

theorem foldl_applyOp_sorted {sortFn : SortFn} (hs : StdSortContract sortFn)
    (ops : List ScheduleOp) (s : Schedule)
    (h : s.events.Pairwise (fun a b => a.start_time ≤ b.start_time)) :
    (ops.foldl (Schedule.applyOp sortFn) s).events.Pairwise
      (fun a b => a.start_time ≤ b.start_time) := by
  induction ops generalizing s with
  | nil => exact h
  | cons op rest ih =>
    rw [List.foldl_cons]
    apply ih
    cases op with
    | addEvent e => exact addEvent_sorted hs s e
    | removeEvent n => exact removeEvent_sorted s n h

/-- C4: sorted invariant. Starting from an empty schedule, after any finite sequence of
`addEvent` and `removeEvent` calls, `getEvents()` is non-decreasing by start time: every
event starts no later than every event stored after it. -/
theorem runOps_sorted (sortFn : SortFn) (hs : StdSortContract sortFn) (ops : List ScheduleOp) :
    (Schedule.runOps sortFn ops).getEvents.Pairwise
      (fun a b => a.start_time ≤ b.start_time) :=
  foldl_applyOp_sorted hs ops Schedule.empty List.Pairwise.nil

theorem runOps_sorted_witness :
    StdSortContract referenceSort ∧
      (Schedule.runOps referenceSort
        [.addEvent lunch, .addEvent standup, .removeEvent "lunch", .addEvent demo,
          .addEvent review]).getEvents.Pairwise
        (fun a b => a.start_time ≤ b.start_time) :=
  ⟨referenceSort_contract, runOps_sorted referenceSort referenceSort_contract _⟩

/-! ## Free time slots -/

theorem freeSlotsLoop_eq (start end_ : Int) (events : List Event) (current_time : Int)
    (free_slots : List (Int × Int)) :
    (if (freeSlotsLoop start end_ events current_time free_slots).1 < end_ then
        (freeSlotsLoop start end_ events current_time free_slots).2 ++
          [((freeSlotsLoop start end_ events current_time free_slots).1, end_)]
      else (freeSlotsLoop start end_ events current_time free_slots).2) =
      free_slots ++ remainingSlots start end_ events current_time := by
  induction events generalizing current_time free_slots with
  | nil =>
    simp only [freeSlotsLoop, remainingSlots]
    split_ifs <;> simp
  | cons ev rest ih =>
    simp only [freeSlotsLoop, remainingSlots]
    by_cases h1 : ev.start_time ≥ end_
    · simp only [h1, if_true]
      split_ifs <;> simp
    · simp only [h1, if_false]
      by_cases h2 : ev.end_time ≤ start
      · simp only [h2, if_true]
        exact ih current_time free_slots
      · simp only [h2, if_false]
        rw [ih]
        split_ifs <;> simp

theorem getFreeTimeSlots_eq (s : Schedule) (start end_ : Int) :
    s.getFreeTimeSlots start end_ = remainingSlots start end_ s.events start := by
  have h := freeSlotsLoop_eq start end_ s.events start []
  simpa [Schedule.getFreeTimeSlots] using h

theorem remainingSlots_bounds (start end_ : Int) (events : List Event) (current_time : Int) :
    ∀ p ∈ remainingSlots start end_ events current_time,
      current_time ≤ p.1 ∧ p.1 < p.2 ∧ p.2 ≤ end_ := by
  induction events generalizing current_time with
  | nil =>
    intro p hp
    simp only [remainingSlots] at hp
    split_ifs at hp with h
    · simp only [List.mem_singleton] at hp
      subst hp
      exact ⟨le_refl _, h, le_refl _⟩
    · cases hp
  | cons ev rest ih =>
    intro p hp
    simp only [remainingSlots] at hp
    split_ifs at hp with h1 h2 h3 h4
    · simp only [List.mem_singleton] at hp
      subst hp
      exact ⟨le_refl _, h2, le_refl _⟩
    · cases hp
    · exact ih current_time p hp
    · simp only [List.singleton_append, List.mem_cons] at hp
      rcases hp with hp | hp
      · subst hp
        exact ⟨le_refl _, h4, by simp only; omega⟩
      · have := ih _ p hp
        exact ⟨le_trans (le_max_left _ _) this.1, this.2⟩
    · simp only [List.nil_append] at hp
      have := ih _ p hp
      exact ⟨le_trans (le_max_left _ _) this.1, this.2⟩

theorem remainingSlots_pairwise (start end_ : Int) (events : List Event)
    (hw : ∀ x ∈ events, x.start_time ≤ x.end_time) (current_time : Int) :
    (remainingSlots start end_ events current_time).Pairwise (fun p q => p.2 ≤ q.1) := by
  induction events generalizing current_time with
  | nil =>
    simp only [remainingSlots]
    split_ifs <;> simp
  | cons ev rest ih =>
    have hw1 : ∀ x ∈ rest, x.start_time ≤ x.end_time :=
      fun x hx => hw x (List.mem_cons_of_mem _ hx)
    have hev : ev.start_time ≤ ev.end_time := hw ev (List.mem_cons_self _ _)
    simp only [remainingSlots]
    split_ifs with h1 h2 h3 h4
    · simp
    · simp
    · exact ih hw1 current_time
    · simp only [List.singleton_append, List.pairwise_cons]
      refine ⟨fun q hq => ?_, ih hw1 _⟩
      have := (remainingSlots_bounds start end_ rest _ q hq).1
      have hm := le_max_right current_time ev.end_time
      show ev.start_time ≤ q.1
      omega
    · simp only [List.nil_append]
      exact ih hw1 _

/-- C6: for every schedule whose events each have start <= end (sorted by start time or
not), the pairs returned by `getFreeTimeSlots(s, e)` are disjoint and in time order:
every pair has `gap_start < gap_end` and lies inside `[s, e]`, and each pair ends no later
than every pair after it starts (in particular consecutive pairs). -/
theorem getFreeTimeSlots_disjoint_ordered (sch : Schedule) (s e : Int)
    (hw : ∀ x ∈ sch.getEvents, x.start_time ≤ x.end_time) :
    (∀ p ∈ sch.getFreeTimeSlots s e, p.1 < p.2 ∧ s ≤ p.1 ∧ p.2 ≤ e) ∧
      (sch.getFreeTimeSlots s e).Pairwise (fun p q => p.2 ≤ q.1) := by
  rw [getFreeTimeSlots_eq]
  refine ⟨fun p hp => ?_, remainingSlots_pairwise s e sch.events hw s⟩
  have := remainingSlots_bounds s e sch.events s p hp
  exact ⟨this.2.1, this.1, this.2.2⟩

theorem getFreeTimeSlots_disjoint_ordered_witness :
    (∀ x ∈ sampleSchedule.getEvents, x.start_time ≤ x.end_time) ∧
      ((∀ p ∈ sampleSchedule.getFreeTimeSlots 8 20, p.1 < p.2 ∧ 8 ≤ p.1 ∧ p.2 ≤ 20) ∧
        (sampleSchedule.getFreeTimeSlots 8 20).Pairwise (fun p q => p.2 ≤ q.1)) :=
  ⟨by decide, getFreeTimeSlots_disjoint_ordered sampleSchedule 8 20 (by decide)⟩

theorem remainingSlots_cover (start end_ : Int) (events : List Event)
    (hsorted : events.Pairwise (fun a b => a.start_time ≤ b.start_time))
    (hw : ∀ x ∈ events, x.start_time ≤ x.end_time) (current_time : Int)
    (hc : start ≤ current_time) (t : Int) (ht1 : current_time ≤ t) (ht2 : t < end_) :
    (∃ p ∈ remainingSlots start end_ events current_time, p.1 ≤ t ∧ t < p.2) ↔
      ¬ ∃ x ∈ events, x.start_time ≤ t ∧ t < x.end_time := by
  induction events generalizing current_time with
  | nil =>
    have hlt : current_time < end_ := lt_of_le_of_lt ht1 ht2
    simp only [remainingSlots, hlt, if_true, List.mem_singleton, exists_eq_left,
      List.not_mem_nil, false_and, exists_false, not_false_eq_true, iff_true]
    exact ⟨ht1, ht2⟩
  | cons ev rest ih =>
    have hw1 : ∀ x ∈ rest, x.start_time ≤ x.end_time :=
      fun x hx => hw x (List.mem_cons_of_mem _ hx)
    have hev : ev.start_time ≤ ev.end_time := hw ev (List.mem_cons_self _ _)
    rw [List.pairwise_cons] at hsorted
    obtain ⟨hfirst, hrest⟩ := hsorted
    have hlt : current_time < end_ := lt_of_le_of_lt ht1 ht2
    simp only [remainingSlots]
    by_cases h1 : ev.start_time ≥ end_
    · simp only [h1, if_true, hlt, List.mem_singleton, exists_eq_left]
      refine ⟨fun _ => ?_, fun _ => ⟨ht1, ht2⟩⟩
      rintro ⟨x, hx, hx1, -⟩
      rcases List.mem_cons.mp hx with rfl | hx
      · omega
      · have := hfirst x hx
        omega
    · simp only [h1, if_false]
      by_cases h2 : ev.end_time ≤ start
      · simp only [h2, if_true]
        rw [ih hrest hw1 current_time hc ht1]
        constructor
        · rintro hn ⟨x, hx, hx1, hx2⟩
          rcases List.mem_cons.mp hx with rfl | hx
          · omega
          · exact hn ⟨x, hx, hx1, hx2⟩
        · rintro hn ⟨x, hx, hx1, hx2⟩
          exact hn ⟨x, List.mem_cons_of_mem _ hx, hx1, hx2⟩
      · simp only [h2, if_false]
        have hmax1 := le_max_left current_time ev.end_time
        have hmax2 := le_max_right current_time ev.end_time
        rcases lt_or_le t ev.start_time with hA | hA
        · -- the instant lies before the event: it is in the gap in front of it
          have hgap : current_time < ev.start_time := lt_of_le_of_lt ht1 hA
          constructor
          · rintro - ⟨x, hx, hx1, -⟩
            rcases List.mem_cons.mp hx with rfl | hx
            · omega
            · have := hfirst x hx
              omega
          · intro _
            refine ⟨(current_time, ev.start_time), ?_, ht1, hA⟩
            simp only [hgap, if_true, List.singleton_append, List.mem_cons, true_or]
        · rcases lt_or_le t ev.end_time with hB | hB
          · -- the instant lies inside the event: no slot holds it
            constructor
            · rintro ⟨p, hp, hp1, hp2⟩
              exfalso
              rcases List.mem_append.mp hp with hp | hp
              · split_ifs at hp
                · simp only [List.mem_singleton] at hp
                  subst hp
                  exact absurd hA (not_le.mpr hp2)
                · cases hp
              · have := (remainingSlots_bounds start end_ rest _ p hp).1
                omega
            · intro hn
              exact absurd ⟨ev, List.mem_cons_self _ _, hA, hB⟩ hn
          · -- the instant lies after the event: the rest of the sweep decides
            have hcur : max current_time ev.end_time ≤ t := max_le ht1 hB
            have hih := ih hrest hw1 (max current_time ev.end_time)
              (le_trans hc hmax1) hcur
            constructor
            · rintro ⟨p, hp, hp1, hp2⟩ ⟨x, hx, hx1, hx2⟩
              rcases List.mem_append.mp hp with hp | hp
              · split_ifs at hp
                · simp only [List.mem_singleton] at hp
                  subst hp
                  have : t < ev.start_time := hp2
                  omega
                · cases hp
              · rcases List.mem_cons.mp hx with rfl | hx
                · omega
                · exact hih.mp ⟨p, hp, hp1, hp2⟩ ⟨x, hx, hx1, hx2⟩
            · intro hn
              have hn1 : ¬ ∃ x ∈ rest, x.start_time ≤ t ∧ t < x.end_time := by
                rintro ⟨x, hx, hx1, hx2⟩
                exact hn ⟨x, List.mem_cons_of_mem _ hx, hx1, hx2⟩
              obtain ⟨p, hp, hp1, hp2⟩ := hih.mpr hn1
              exact ⟨p, List.mem_append_right _ hp, hp1, hp2⟩

/-- C5: free-slot coverage. For a schedule whose events are sorted by start time and each
have start <= end, and a query range with `s <= e`: the slots returned by
`getFreeTimeSlots(s, e)` stay inside the range, and every instant `t` with `s <= t < e`
lies in exactly one of (i) a half-open free slot `[gap_start, gap_end)` that was returned,
(ii) the half-open interval `[x.start, x.end)` of at least one stored event: it lies in
one of the two, and never in both. -/
theorem getFreeTimeSlots_coverage (sch : Schedule) (s e : Int)
    (hsorted : sch.getEvents.Pairwise (fun a b => a.start_time ≤ b.start_time))
    (hw : ∀ x ∈ sch.getEvents, x.start_time ≤ x.end_time)
    (_hse : s ≤ e) (t : Int) (ht1 : s ≤ t) (ht2 : t < e) :
    (∀ p ∈ sch.getFreeTimeSlots s e, s ≤ p.1 ∧ p.2 ≤ e) ∧
      ((∃ p ∈ sch.getFreeTimeSlots s e, p.1 ≤ t ∧ t < p.2) ∨
        (∃ x ∈ sch.getEvents, x.start_time ≤ t ∧ t < x.end_time)) ∧
      ¬ ((∃ p ∈ sch.getFreeTimeSlots s e, p.1 ≤ t ∧ t < p.2) ∧
        (∃ x ∈ sch.getEvents, x.start_time ≤ t ∧ t < x.end_time)) := by
  have h := remainingSlots_cover s e sch.events hsorted hw s (le_refl s) t ht1 ht2
  rw [getFreeTimeSlots_eq]
  refine ⟨fun p hp => ?_, ?_, ?_⟩
  · have := remainingSlots_bounds s e sch.events s p hp
    exact ⟨this.1, this.2.2⟩
  · by_cases hx : ∃ x ∈ sch.getEvents, x.start_time ≤ t ∧ t < x.end_time
    · exact Or.inr hx
    · exact Or.inl (h.mpr hx)
  · rintro ⟨hp, hx⟩
    exact h.mp hp hx

theorem getFreeTimeSlots_coverage_witness :
    sampleSchedule.getEvents.Pairwise (fun a b => a.start_time ≤ b.start_time) ∧
      (∀ x ∈ sampleSchedule.getEvents, x.start_time ≤ x.end_time) ∧
      (8 : Int) ≤ 20 ∧ (8 : Int) ≤ 12 ∧ (12 : Int) < 20 ∧
      ((∀ p ∈ sampleSchedule.getFreeTimeSlots 8 20, 8 ≤ p.1 ∧ p.2 ≤ 20) ∧
        ((∃ p ∈ sampleSchedule.getFreeTimeSlots 8 20, p.1 ≤ 12 ∧ 12 < p.2) ∨
          (∃ x ∈ sampleSchedule.getEvents, x.start_time ≤ 12 ∧ 12 < x.end_time)) ∧
        ¬ ((∃ p ∈ sampleSchedule.getFreeTimeSlots 8 20, p.1 ≤ 12 ∧ 12 < p.2) ∧
          (∃ x ∈ sampleSchedule.getEvents, x.start_time ≤ 12 ∧ 12 < x.end_time))) :=
  ⟨by decide, by decide, by decide, by decide, by decide,
    getFreeTimeSlots_coverage sampleSchedule 8 20 (by decide) (by decide) (by decide) 12
      (by decide) (by decide)⟩

/-! ## recommendEvents -/

theorem collectRecommendations_eq {S : Type} (score : Event → Preferences → S)
    (preferences : Preferences) (sch : Schedule) (events : List Event) :
    collectRecommendations score preferences sch events =
      (events.filter (fun ev => !sch.hasConflict ev)).map
        (fun ev => ⟨ev, score ev preferences, "Basic compatibility score"⟩) := by
  induction events with
  | nil => rfl
  | cons ev rest ih =>
    unfold collectRecommendations
    by_cases h : sch.hasConflict ev = true
    · simp only [h, if_true, ih, List.filter_cons, Bool.not_true, Bool.false_eq_true,
        if_false]
    · simp only [Bool.not_eq_true] at h
      simp only [h, Bool.false_eq_true, if_false, ih, List.filter_cons, Bool.not_false,
        if_true, List.map_cons]

theorem truncateRecommendations_eq_take {α : Type} (l : List α) (m : Int) :
    truncateRecommendations l m = l.take (toSizeT m) := by
  unfold truncateRecommendations
  split_ifs with h
  · rfl
  · exact (List.take_of_length_le (not_lt.mp h)).symm

theorem toSizeT_of_nonneg (m : Int) (h0 : 0 ≤ m) (h1 : m ≤ INT_MAX) :
    toSizeT m = m.toNat := by
  unfold toSizeT
  have hlt : m < (2 : Int) ^ SIZE_BITS := by
    have : (2 : Int) ^ SIZE_BITS = 18446744073709551616 := by norm_num [SIZE_BITS]
    rw [this]
    unfold INT_MAX at h1
    omega
  rw [Int.emod_eq_of_lt h0 hlt]

theorem applyEnrichment_isSome {S : Type} (ai : FutureOutcome)
    (l : List (EventRecommendation S)) :
    (applyEnrichment ai l).isSome = !ai.propagates := by
  cases ai with
  | value result =>
    unfold applyEnrichment
    simp only
    split_ifs <;> rfl
  | exception => rfl
  | foreignException => rfl
  | callThrows => rfl

theorem recommendEvents_isSome {S : Type} [LinearOrder S] (sortFn : SortFn)
    (calculateEventScore : Event → Preferences → S) (ai_response : FutureOutcome)
    (user : User) (available_events : List Event) (user_schedule : Schedule)
    (max_recommendations : Int) :
    (recommendEvents sortFn calculateEventScore ai_response user available_events
      user_schedule max_recommendations).isSome = !ai_response.propagates :=
  applyEnrichment_isSome ai_response _

theorem applyEnrichment_map_pair {S : Type} (ai : FutureOutcome)
    (l result : List (EventRecommendation S)) (h : applyEnrichment ai l = some result) :
    result.map (fun r => (r.event, r.score)) = l.map (fun r => (r.event, r.score)) := by
  unfold applyEnrichment at h
  cases ai with
  | value response =>
    simp only at h
    split_ifs at h
    · cases h
      simp [List.map_map, Function.comp_def]
    · cases h
      rfl
  | exception =>
    cases h
    rfl
  | foreignException => cases h
  | callThrows => cases h

theorem applyEnrichment_map_event {S : Type} (ai : FutureOutcome)
    (l result : List (EventRecommendation S)) (h : applyEnrichment ai l = some result) :
    result.map (fun r => r.event) = l.map (fun r => r.event) := by
  have := congrArg (List.map Prod.fst) (applyEnrichment_map_pair ai l result h)
  simpa [List.map_map, Function.comp_def] using this

theorem applyEnrichment_map_score {S : Type} (ai : FutureOutcome)
    (l result : List (EventRecommendation S)) (h : applyEnrichment ai l = some result) :
    result.map (fun r => r.score) = l.map (fun r => r.score) := by
  have := congrArg (List.map Prod.snd) (applyEnrichment_map_pair ai l result h)
  simpa [List.map_map, Function.comp_def] using this

theorem applyEnrichment_mem {S : Type} (ai : FutureOutcome)
    (l result : List (EventRecommendation S)) (h : applyEnrichment ai l = some result)
    (r : EventRecommendation S) (hr : r ∈ result) :
    ∃ r0 ∈ l, r0.event = r.event ∧ r0.score = r.score := by
  have hmem : (r.event, r.score) ∈ result.map (fun r => (r.event, r.score)) :=
    List.mem_map.mpr ⟨r, hr, rfl⟩
  rw [applyEnrichment_map_pair ai l result h] at hmem
  obtain ⟨r0, hr0, heq⟩ := List.mem_map.mp hmem
  exact ⟨r0, hr0, congrArg Prod.fst heq, congrArg Prod.snd heq⟩

theorem mem_sorted_collect {S : Type} [LinearOrder S] {sortFn : SortFn}
    (hs : StdSortContract sortFn) (score : Event → Preferences → S)
    (preferences : Preferences) (sch : Schedule) (events : List Event)
    (r : EventRecommendation S)
    (hr : r ∈ sortFn (EventRecommendation S) scoreGreater
      (collectRecommendations score preferences sch events)) :
    r.event ∈ events ∧ sch.hasConflict r.event = false ∧
      r.score = score r.event preferences := by
  have hp := hs.perm (EventRecommendation S) scoreGreater
    (collectRecommendations score preferences sch events) strictWeak_scoreGreater
  have hr1 := hp.mem_iff.mp hr
  rw [collectRecommendations_eq] at hr1
  obtain ⟨ev, hev, rfl⟩ := List.mem_map.mp hr1
  rw [List.mem_filter] at hev
  exact ⟨hev.1, by simpa using hev.2, rfl⟩

/-- C7: `recommendEvents` never returns a conflicting candidate. For every user,
candidate list, schedule and `max_recommendations`, and whatever the collaborator does:
`recommendEvents` returns a list unless an exception of the collaborator propagates, and
each event of a returned list is one of the candidates and has
`schedule.hasConflict(event) == false`. -/
theorem recommendEvents_no_conflict {S : Type} [LinearOrder S] (sortFn : SortFn)
    (hs : StdSortContract sortFn) (calculateEventScore : Event → Preferences → S)
    (ai_response : FutureOutcome) (user : User) (available_events : List Event)
    (user_schedule : Schedule) (max_recommendations : Int) :
    (recommendEvents sortFn calculateEventScore ai_response user available_events
        user_schedule max_recommendations).isSome = !ai_response.propagates ∧
      ∀ result, recommendEvents sortFn calculateEventScore ai_response user available_events
          user_schedule max_recommendations = some result →
        ∀ r ∈ result,
          r.event ∈ available_events ∧ user_schedule.hasConflict r.event = false := by
  refine ⟨recommendEvents_isSome _ _ _ _ _ _ _, fun result hres r hr => ?_⟩
  unfold recommendEvents at hres
  obtain ⟨r0, hr0, hev, -⟩ := applyEnrichment_mem _ _ result hres r hr
  rw [truncateRecommendations_eq_take] at hr0
  have h := mem_sorted_collect hs calculateEventScore user.preferences user_schedule
    available_events r0 (List.mem_of_mem_take hr0)
  rw [← hev]
  exact ⟨h.1, h.2.1⟩

theorem recommendEvents_no_conflict_witness :
    StdSortContract referenceSort ∧
      ∃ result, recommendEvents referenceSort durationScore FutureOutcome.exception sampleUser
          [review, demo, mkEvent "gala" 20 30] sampleSchedule 2 = some result ∧
        ∀ r ∈ result,
          r.event ∈ [review, demo, mkEvent "gala" 20 30] ∧
            sampleSchedule.hasConflict r.event = false :=
  ⟨referenceSort_contract, _, rfl,
    (recommendEvents_no_conflict referenceSort referenceSort_contract durationScore
      FutureOutcome.exception sampleUser [review, demo, mkEvent "gala" 20 30] sampleSchedule
      2).2 _ rfl⟩

theorem sorted_collect_scores {S : Type} [LinearOrder S] {sortFn : SortFn}
    (hs : StdSortContract sortFn) (score : Event → Preferences → S)
    (preferences : Preferences) (sch : Schedule) (events : List Event) :
    (sortFn (EventRecommendation S) scoreGreater
      (collectRecommendations score preferences sch events)).Pairwise
      (fun a b => b.score ≤ a.score) := by
  have h := hs.sorted (EventRecommendation S) scoreGreater
    (collectRecommendations score preferences sch events) strictWeak_scoreGreater
  refine h.imp ?_
  intro a b hab
  simpa [scoreGreater] using hab

/-- C8: truncation. For `max_recommendations >= 0` (an `int`, so at most `INT_MAX`),
`recommendEvents` returns a list unless an exception of the collaborator propagates, and a
returned list has exactly `min(max_recommendations, number of non-conflicting candidates)`
recommendations, each carrying the score of its event, and they are the highest-scoring
ones: the returned events together with a list `not_returned` are a rearrangement of the
non-conflicting candidates, and every returned score is >= the score of every candidate
in `not_returned`. -/
theorem recommendEvents_truncation {S : Type} [LinearOrder S] (sortFn : SortFn)
    (hs : StdSortContract sortFn) (calculateEventScore : Event → Preferences → S)
    (ai_response : FutureOutcome) (user : User) (available_events : List Event)
    (user_schedule : Schedule) (max_recommendations : Int)
    (h0 : 0 ≤ max_recommendations) (h1 : max_recommendations ≤ INT_MAX) :
    (recommendEvents sortFn calculateEventScore ai_response user available_events
        user_schedule max_recommendations).isSome = !ai_response.propagates ∧
      ∀ result, recommendEvents sortFn calculateEventScore ai_response user available_events
          user_schedule max_recommendations = some result →
        (result.length : Int) =
            min max_recommendations
              ((available_events.filter
                (fun ev => !user_schedule.hasConflict ev)).length : Int) ∧
          (∀ r ∈ result, r.score = calculateEventScore r.event user.preferences) ∧
          ∃ not_returned : List Event,
            (result.map (fun r => r.event) ++ not_returned).Perm
              (available_events.filter (fun ev => !user_schedule.hasConflict ev)) ∧
            ∀ r ∈ result,
              ∀ q ∈ not_returned, calculateEventScore q user.preferences ≤ r.score := by
  refine ⟨recommendEvents_isSome _ _ _ _ _ _ _, fun result hres => ?_⟩
  have hk := toSizeT_of_nonneg max_recommendations h0 h1
  have hperm := hs.perm (EventRecommendation S) scoreGreater
    (collectRecommendations calculateEventScore user.preferences user_schedule
      available_events) strictWeak_scoreGreater
  have hsorted := sorted_collect_scores hs calculateEventScore user.preferences
    user_schedule available_events
  have hmem := mem_sorted_collect hs calculateEventScore user.preferences user_schedule
    available_events
  have hlen : (collectRecommendations calculateEventScore user.preferences user_schedule
      available_events).length =
      (available_events.filter (fun ev => !user_schedule.hasConflict ev)).length := by
    rw [collectRecommendations_eq, List.length_map]
  have hevents : (collectRecommendations calculateEventScore user.preferences user_schedule
      available_events).map (fun r => r.event) =
      available_events.filter (fun ev => !user_schedule.hasConflict ev) := by
    rw [collectRecommendations_eq, List.map_map]
    exact List.map_id _
  unfold recommendEvents at hres
  simp only [truncateRecommendations_eq_take, hk] at hres
  generalize hsd : sortFn (EventRecommendation S) scoreGreater
    (collectRecommendations calculateEventScore user.preferences user_schedule
      available_events) = sorted at hperm hsorted hmem hres
  have hmapev := applyEnrichment_map_event _ _ result hres
  refine ⟨?_, ?_, ?_⟩
  · have hl : result.length = (sorted.take max_recommendations.toNat).length := by
      have := congrArg List.length hmapev
      simpa using this
    rw [hl, List.length_take, hperm.length_eq, hlen]
    omega
  · intro r hr
    obtain ⟨r0, hr0, hev, hsc⟩ := applyEnrichment_mem _ _ result hres r hr
    rw [← hev, ← hsc]
    exact (hmem r0 (List.mem_of_mem_take hr0)).2.2
  · refine ⟨(sorted.drop max_recommendations.toNat).map (fun r => r.event), ?_, ?_⟩
    · rw [hmapev, ← List.map_append, List.take_append_drop, ← hevents]
      exact hperm.map _
    · intro r hr q hq
      obtain ⟨r0, hr0, -, hsc⟩ := applyEnrichment_mem _ _ result hres r hr
      obtain ⟨q0, hq0, rfl⟩ := List.mem_map.mp hq
      rw [← (hmem q0 (List.mem_of_mem_drop hq0)).2.2, ← hsc]
      have hsplit : (sorted.take max_recommendations.toNat ++
          sorted.drop max_recommendations.toNat).Pairwise (fun a b => b.score ≤ a.score) := by
        rw [List.take_append_drop]
        exact hsorted
      exact (List.pairwise_append.mp hsplit).2.2 r0 hr0 q0 hq0

theorem recommendEvents_truncation_witness :
    StdSortContract referenceSort ∧ (0 : Int) ≤ 2 ∧ (2 : Int) ≤ INT_MAX ∧
      ∃ result, recommendEvents referenceSort durationScore FutureOutcome.exception sampleUser
          [review, demo, mkEvent "gala" 20 30, mkEvent "talk" 30 35] sampleSchedule 2 =
            some result ∧
        ((result.length : Int) =
          min 2 (([review, demo, mkEvent "gala" 20 30, mkEvent "talk" 30 35].filter
            (fun ev => !sampleSchedule.hasConflict ev)).length : Int) ∧
        (∀ r ∈ result, r.score = durationScore r.event sampleUser.preferences) ∧
        ∃ not_returned : List Event,
          (result.map (fun r => r.event) ++ not_returned).Perm
            ([review, demo, mkEvent "gala" 20 30, mkEvent "talk" 30 35].filter
              (fun ev => !sampleSchedule.hasConflict ev)) ∧
          ∀ r ∈ result,
            ∀ q ∈ not_returned, durationScore q sampleUser.preferences ≤ r.score) :=
  ⟨referenceSort_contract, by decide, by decide, _, rfl,
    (recommendEvents_truncation referenceSort referenceSort_contract durationScore
      FutureOutcome.exception sampleUser
      [review, demo, mkEvent "gala" 20 30, mkEvent "talk" 30 35] sampleSchedule 2
      (by decide) (by decide)).2 _ rfl⟩

/-- C9 (the code at a negative `max_recommendations`): with one non-conflicting candidate
and `max_recommendations = -1`, the `size_t` comparison `size() > max_recommendations` is
false, nothing is cut, and `recommendEvents` returns that candidate instead of an empty
list. -/
theorem recommendEvents_negative_max_not_empty :
    (recommendEvents referenceSort durationScore FutureOutcome.exception sampleUser [demo]
      Schedule.empty (-1)).map (fun result => result.map (fun r => r.event)) =
        some [demo] := by
  decide

theorem recommendEvents_pairwise_desc {S : Type} [LinearOrder S] {sortFn : SortFn}
    (hs : StdSortContract sortFn) (calculateEventScore : Event → Preferences → S)
    (ai_response : FutureOutcome) (user : User) (available_events : List Event)
    (user_schedule : Schedule) (max_recommendations : Int)
    (result : List (EventRecommendation S))
    (hres : recommendEvents sortFn calculateEventScore ai_response user available_events
      user_schedule max_recommendations = some result) :
    result.Pairwise (fun a b => a.score ≥ b.score) := by
  have hsorted := sorted_collect_scores hs calculateEventScore user.preferences
    user_schedule available_events
  have h2 : (result.map (fun r => r.score)).Pairwise (fun x y => x ≥ y) := by
    unfold recommendEvents at hres
    simp only [truncateRecommendations_eq_take] at hres
    rw [applyEnrichment_map_score _ _ result hres, List.pairwise_map]
    exact hsorted.take
  exact List.pairwise_map.mp h2

/-- C10: the list returned by `recommendEvents` is ordered descending by score:
`recommendEvents` returns a list unless an exception of the collaborator propagates, and
for every pair of positions `i < j` in a returned list,
`result[i].score >= result[j].score`. -/
theorem recommendEvents_sorted_desc {S : Type} [LinearOrder S] (sortFn : SortFn)
    (hs : StdSortContract sortFn) (calculateEventScore : Event → Preferences → S)
    (ai_response : FutureOutcome) (user : User) (available_events : List Event)
    (user_schedule : Schedule) (max_recommendations : Int) :
    (recommendEvents sortFn calculateEventScore ai_response user available_events
        user_schedule max_recommendations).isSome = !ai_response.propagates ∧
      ∀ result, recommendEvents sortFn calculateEventScore ai_response user available_events
          user_schedule max_recommendations = some result →
        ∀ (i j : Nat) (hij : i < j) (hj : j < result.length),
          (result.get ⟨i, lt_trans hij hj⟩).score ≥ (result.get ⟨j, hj⟩).score :=
  ⟨recommendEvents_isSome _ _ _ _ _ _ _, fun result hres i j hij hj =>
    List.pairwise_iff_get.mp
      (recommendEvents_pairwise_desc hs calculateEventScore ai_response user available_events
        user_schedule max_recommendations result hres) ⟨i, lt_trans hij hj⟩ ⟨j, hj⟩ hij⟩

theorem recommendEvents_sorted_desc_witness :
    StdSortContract referenceSort ∧
      ∃ result, recommendEvents referenceSort durationScore
          (FutureOutcome.value ⟨true, "ranked by length", ""⟩) sampleUser
          [review, demo, mkEvent "gala" 20 30, mkEvent "talk" 30 35] sampleSchedule 3 =
            some result ∧
        ∃ (hij : 0 < 2) (hj : 2 < result.length),
          (result.get ⟨0, lt_trans hij hj⟩).score ≥ (result.get ⟨2, hj⟩).score :=
  ⟨referenceSort_contract, _, rfl, by decide, by decide,
    (recommendEvents_sorted_desc referenceSort referenceSort_contract durationScore
      (FutureOutcome.value ⟨true, "ranked by length", ""⟩) sampleUser
      [review, demo, mkEvent "gala" 20 30, mkEvent "talk" 30 35] sampleSchedule 3).2 _ rfl
      0 2 (by decide) (by decide)⟩

/-! ## Scoring -/

theorem calculateLocationScore_eq (event : Event) (preferences : Preferences) :
    calculateLocationScore event preferences =
      if event.location = "" ∨ preferences.user_location = "" then 0.8 else 1.0 := by
  unfold calculateLocationScore
  by_cases h : event.location = "" ∨ preferences.user_location = ""
  · rw [if_pos h, if_pos]
    rcases h with h | h
    · simp [(String.isEmpty_iff _).mpr h]
    · simp [(String.isEmpty_iff _).mpr h]
  · rw [if_neg h, if_neg]
    intro hc
    rw [Bool.or_eq_true] at hc
    rcases hc with hc | hc
    · exact h (Or.inl ((String.isEmpty_iff _).mp hc))
    · exact h (Or.inr ((String.isEmpty_iff _).mp hc))

/-- C11: `calculateEventScore(event, preferences)` equals
`0.5 * interestScore + 0.3 * timeScore + 0.2 * locationScore`, where `locationScore` is 0.8
if the location of the event or the home location of the preferences is the empty string
and 1.0 otherwise; `max_travel_distance` never affects the score (replacing it by any
other value leaves the score unchanged).  Arithmetic is exact. -/
theorem calculateEventScore_formula (localHour : Int → Int) (event : Event)
    (preferences : Preferences) :
    calculateEventScore localHour event preferences =
        0.5 * calculateInterestScore event preferences +
          0.3 * calculateTimePreferenceScore localHour event preferences +
          0.2 * (if event.location = "" ∨ preferences.user_location = "" then 0.8 else 1.0) ∧
      ∀ distance : Rat,
        calculateEventScore localHour event
            { preferences with max_travel_distance := distance } =
          calculateEventScore localHour event preferences := by
  refine ⟨?_, fun distance => rfl⟩
  unfold calculateEventScore
  rw [calculateLocationScore_eq]
  ring

theorem mem_of_lookup_eq_some {interests : List (String × Int)} {tag : String} {weight : Int}
    (h : interests.lookup tag = some weight) : (tag, weight) ∈ interests := by
  obtain ⟨l₁, l₂, rfl, -⟩ := List.lookup_eq_some_iff.mp h
  simp

theorem interestScoreLoop_bounds (interests : List (String × Int))
    (hunit : ∀ kv ∈ interests, kv.2 = 0 ∨ kv.2 = 1) (tags : List String)
    (total_score : Rat) (matching_tags : Int)
    (h0 : 0 ≤ total_score) (h1 : total_score ≤ matching_tags) :
    0 ≤ (interestScoreLoop interests tags total_score matching_tags).1 ∧
      (interestScoreLoop interests tags total_score matching_tags).1 ≤
        ((interestScoreLoop interests tags total_score matching_tags).2 : Rat) := by
  induction tags generalizing total_score matching_tags with
  | nil => exact ⟨h0, h1⟩
  | cons tag rest ih =>
    unfold interestScoreLoop
    cases hl : interests.lookup tag with
    | none => exact ih total_score matching_tags h0 h1
    | some weight =>
      have hw := hunit _ (mem_of_lookup_eq_some hl)
      simp only at hw
      apply ih
      · rcases hw with hw | hw <;> rw [hw] <;> push_cast <;> linarith
      · rcases hw with hw | hw <;> rw [hw] <;> push_cast <;> linarith

theorem calculateInterestScore_unit_bounds (event : Event) (preferences : Preferences)
    (hunit : ∀ kv ∈ preferences.interests, kv.2 = 0 ∨ kv.2 = 1) :
    0 ≤ calculateInterestScore event preferences ∧
      calculateInterestScore event preferences ≤ 1 := by
  have h := interestScoreLoop_bounds preferences.interests hunit event.tags 0 0
    (le_refl 0) (by norm_num)
  unfold calculateInterestScore
  simp only
  split_ifs with hpos
  · have hq : (0 : Rat) <
        ((interestScoreLoop preferences.interests event.tags 0 0).2 : Rat) := by
      exact_mod_cast hpos
    exact ⟨div_nonneg h.1 (le_of_lt hq), (div_le_one hq).mpr h.2⟩
  · exact ⟨le_refl 0, zero_le_one⟩

theorem timeSlotLoop_bounds (hour : Int) (slots : List (Int × Int)) :
    0.5 ≤ timeSlotLoop hour slots ∧ timeSlotLoop hour slots ≤ 1 := by
  induction slots with
  | nil => unfold timeSlotLoop; norm_num
  | cons slot rest ih =>
    unfold timeSlotLoop
    split_ifs
    · norm_num
    · exact ih

theorem calculateTimePreferenceScore_bounds (localHour : Int → Int) (event : Event)
    (preferences : Preferences) :
    0.5 ≤ calculateTimePreferenceScore localHour event preferences ∧
      calculateTimePreferenceScore localHour event preferences ≤ 1 := by
  unfold calculateTimePreferenceScore
  simp only
  split_ifs
  · norm_num
  · exact timeSlotLoop_bounds _ _

theorem calculateLocationScore_bounds (event : Event) (preferences : Preferences) :
    0.8 ≤ calculateLocationScore event preferences ∧
      calculateLocationScore event preferences ≤ 1 := by
  unfold calculateLocationScore
  split_ifs <;> norm_num

/-- C13: score bounds under unit weights. For every event and every preferences whose
interest weights are all 0 or 1, with any time windows and locations,
`0 <= calculateEventScore(event, preferences) <= 1`. -/
theorem calculateEventScore_unit_bounds (localHour : Int → Int) (event : Event)
    (preferences : Preferences)
    (hunit : ∀ kv ∈ preferences.interests, kv.2 = 0 ∨ kv.2 = 1) :
    0 ≤ calculateEventScore localHour event preferences ∧
      calculateEventScore localHour event preferences ≤ 1 := by
  have hi := calculateInterestScore_unit_bounds event preferences hunit
  have ht := calculateTimePreferenceScore_bounds localHour event preferences
  have hl := calculateLocationScore_bounds event preferences
  unfold calculateEventScore
  simp only
  norm_num at ht hl ⊢
  constructor <;> linarith [hi.1, hi.2, ht.1, ht.2, hl.1, hl.2]

theorem calculateEventScore_unit_bounds_witness :
    (∀ kv ∈ unitPreferences.interests, kv.2 = 0 ∨ kv.2 = 1) ∧
      0 ≤ calculateEventScore hourOfDay eventA unitPreferences ∧
      calculateEventScore hourOfDay eventA unitPreferences ≤ 1 :=
  ⟨by decide, calculateEventScore_unit_bounds hourOfDay eventA unitPreferences (by decide)⟩

/-! ## End-to-end scenario -/

theorem sort_pair {sortFn : SortFn} (hs : StdSortContract sortFn) {α : Type}
    (comp : α → α → Bool) (hc : StrictWeakOrdering comp) (a b : α) (hab : comp a b = true) :
    sortFn α comp [a, b] = [a, b] := by
  have hp := hs.perm α comp [a, b] hc
  have hso := hs.sorted α comp [a, b] hc
  have hirr : ∀ x, comp x x = true → False := fun x hx => by
    have := hc.1 x x hx
    rw [hx] at this
    cases this
  obtain ⟨x, y, hxy⟩ := List.length_eq_two.mp hp.length_eq
  rw [hxy] at hp hso ⊢
  have hyx : comp y x = false := by
    simpa using hso
  have hx : x = a ∨ x = b := by simpa using hp.mem_iff.mp (List.mem_cons_self x [y])
  have hy : y = a ∨ y = b := by
    simpa using hp.mem_iff.mp (List.mem_cons_of_mem x (List.mem_cons_self y []))
  have ha : a = x ∨ a = y := by simpa using hp.mem_iff.mpr (List.mem_cons_self a [b])
  have hb : b = x ∨ b = y := by
    simpa using hp.mem_iff.mpr (List.mem_cons_of_mem a (List.mem_cons_self b []))
  rcases hx with rfl | rfl
  · rcases hy with rfl | rfl
    · rcases hb with rfl | rfl <;> exact absurd hab (by intro h; exact hirr _ h)
    · rfl
  · rcases hy with rfl | rfl
    · rw [hab] at hyx
      cases hyx
    · rcases ha with rfl | rfl <;> exact absurd hab (by intro h; exact hirr _ h)

theorem scenario_scoreA (localHour : Int → Int) (preferences : Preferences) (A : Event)
    (hint : preferences.interests = [("music", 5)])
    (hslots : preferences.preferred_time_slots = [(18, 23)])
    (hhome : preferences.user_location = "SF")
    (hAtags : A.tags = ["music"]) (hAhour : localHour A.start_time = 19)
    (hAloc : A.location = "SF") :
    calculateEventScore localHour A preferences = 3.0 := by
  rw [(calculateEventScore_formula localHour A preferences).1]
  simp [calculateInterestScore, calculateTimePreferenceScore, interestScoreLoop, timeSlotLoop,
    hint, hslots, hhome, hAtags, hAhour, hAloc, List.lookup]
  norm_num

theorem scenario_scoreB (localHour : Int → Int) (preferences : Preferences) (B : Event)
    (hint : preferences.interests = [("music", 5)])
    (hslots : preferences.preferred_time_slots = [(18, 23)])
    (hBtags : B.tags = ["sports"]) (hBhour : localHour B.start_time = 10)
    (hBloc : B.location = "") :
    calculateEventScore localHour B preferences = 0.31 := by
  rw [(calculateEventScore_formula localHour B preferences).1]
  simp [calculateInterestScore, calculateTimePreferenceScore, interestScoreLoop, timeSlotLoop,
    hint, hslots, hBtags, hBhour, hBloc, List.lookup]
  norm_num

/-- C12: end-to-end scenario. With an empty schedule, preferences holding the interests
music: 5, the time window (18, 23) and the home location SF, the candidates EventA (tags
music, local start hour 19, location SF) and EventB (tags sports, local start hour 10, no
location), and `max_recommendations = 5`, `recommendEvents` returns a list unless an
exception of the collaborator propagates, and a returned list holds both events, EventA
first with score 3.0 and EventB second with score 0.31 (scores in exact arithmetic). -/
theorem recommendEvents_scenario (sortFn : SortFn) (hs : StdSortContract sortFn)
    (localHour : Int → Int) (ai_response : FutureOutcome) (user : User) (A B : Event)
    (hint : user.preferences.interests = [("music", 5)])
    (hslots : user.preferences.preferred_time_slots = [(18, 23)])
    (hhome : user.preferences.user_location = "SF")
    (hAtags : A.tags = ["music"]) (hAhour : localHour A.start_time = 19)
    (hAloc : A.location = "SF")
    (hBtags : B.tags = ["sports"]) (hBhour : localHour B.start_time = 10)
    (hBloc : B.location = "") :
    (recommendEvents sortFn (calculateEventScore localHour) ai_response user [A, B]
        Schedule.empty 5).isSome = !ai_response.propagates ∧
      ∀ result, recommendEvents sortFn (calculateEventScore localHour) ai_response user
          [A, B] Schedule.empty 5 = some result →
        result.map (fun r => (r.event, r.score)) = [(A, 3.0), (B, 0.31)] := by
  refine ⟨recommendEvents_isSome _ _ _ _ _ _ _, fun result hres => ?_⟩
  have hA := scenario_scoreA localHour user.preferences A hint hslots hhome hAtags hAhour hAloc
  have hB := scenario_scoreB localHour user.preferences B hint hslots hBtags hBhour hBloc
  have hcollect : collectRecommendations (calculateEventScore localHour) user.preferences
      Schedule.empty [A, B] =
      [⟨A, 3.0, "Basic compatibility score"⟩, ⟨B, 0.31, "Basic compatibility score"⟩] := by
    simp [collectRecommendations, Schedule.hasConflict, Schedule.empty, hasConflictLoop, hA, hB]
  have hgt : scoreGreater (⟨A, 3.0, "Basic compatibility score"⟩ : EventRecommendation Rat)
      ⟨B, 0.31, "Basic compatibility score"⟩ = true := by
    simp only [scoreGreater, decide_eq_true_eq]
    norm_num
  have hk : toSizeT 5 = 5 := by
    rw [toSizeT_of_nonneg 5 (by norm_num) (by unfold INT_MAX; norm_num)]
    rfl
  unfold recommendEvents at hres
  simp only [truncateRecommendations_eq_take, hcollect,
    sort_pair hs scoreGreater strictWeak_scoreGreater _ _ hgt, hk] at hres
  rw [applyEnrichment_map_pair _ _ result hres]
  rfl

theorem recommendEvents_scenario_witness :
    StdSortContract referenceSort ∧
      scenarioUser.preferences.interests = [("music", 5)] ∧
      scenarioUser.preferences.preferred_time_slots = [(18, 23)] ∧
      scenarioUser.preferences.user_location = "SF" ∧
      eventA.tags = ["music"] ∧ hourOfDay eventA.start_time = 19 ∧ eventA.location = "SF" ∧
      eventB.tags = ["sports"] ∧ hourOfDay eventB.start_time = 10 ∧ eventB.location = "" ∧
      ∃ result, recommendEvents referenceSort (calculateEventScore hourOfDay)
          FutureOutcome.exception scenarioUser [eventA, eventB] Schedule.empty 5 =
            some result ∧
        result.map (fun r => (r.event, r.score)) = [(eventA, 3.0), (eventB, 0.31)] :=
  ⟨referenceSort_contract, rfl, rfl, rfl, rfl, by decide, rfl, rfl, by decide, rfl, _, rfl,
    (recommendEvents_scenario referenceSort referenceSort_contract hourOfDay
      FutureOutcome.exception scenarioUser eventA eventB rfl rfl rfl rfl (by decide) rfl rfl
      (by decide) rfl).2 _ rfl⟩

/-! ## Preferences and updateUserInterests -/

theorem lookup_map_assign (interests : List (String × Int)) (interest : String)
    (weight : Int) (key : String) :
    (interests.map (fun kv => if kv.1 == interest then (kv.1, weight) else kv)).lookup key =
      (interests.lookup key).map (fun w => if key = interest then weight else w) := by
  induction interests with
  | nil => rfl
  | cons kv rest ih =>
    obtain ⟨k, w⟩ := kv
    have hhead : (if (k == interest) = true then (k, weight) else (k, w)) =
        (k, if k = interest then weight else w) := by
      by_cases hi : k = interest <;> simp [hi]
    simp only [List.map_cons, hhead]
    rw [List.lookup_cons, List.lookup_cons]
    by_cases hk : key = k
    · subst hk
      simp only [beq_self_eq_true, Option.map_some']
    · have hb : (key == k) = false := by simpa using hk
      simp only [hb]
      exact ih

theorem setInterestWeight_lookup (p : Preferences) (interest : String) (weight : Int)
    (key : String) :
    (p.setInterestWeight interest weight).interests.lookup key =
      (p.interests.lookup key).map (fun w => if key = interest then weight else w) := by
  unfold Preferences.setInterestWeight
  by_cases h : (p.interests.lookup interest).isSome = true
  · simp only [h, if_true, assignInterest]
    exact lookup_map_assign p.interests interest weight key
  · simp only [h, Bool.false_eq_true, if_false]
    by_cases hk : key = interest
    · subst hk
      rw [Option.not_isSome_iff_eq_none] at h
      rw [h]
      rfl
    · cases p.interests.lookup key <;> simp [hk]

theorem getInterestWeight_of_lookup {p : Preferences} {interest : String} {w : Int}
    (h : p.interests.lookup interest = some w) : p.getInterestWeight interest = w := by
  unfold Preferences.getInterestWeight
  rw [h]

theorem getInterestWeight_of_lookup_none {p : Preferences} {interest : String}
    (h : p.interests.lookup interest = none) : p.getInterestWeight interest = 0 := by
  unfold Preferences.getInterestWeight
  rw [h]

theorem wrapInt_of_range (n : Int) (h0 : INT_MIN ≤ n) (h1 : n ≤ INT_MAX) : wrapInt n = n := by
  unfold INT_MIN at h0
  unfold INT_MAX at h1
  unfold wrapInt
  omega

theorem updateTagsLoop_lookup_none (p : Preferences) (tags : List String) (key : String)
    (h : p.interests.lookup key = none) :
    (updateTagsLoop p tags).interests.lookup key = none := by
  induction tags generalizing p with
  | nil => exact h
  | cons tag rest ih =>
    unfold updateTagsLoop
    apply ih
    rw [setInterestWeight_lookup, h]
    rfl

theorem updateEventsLoop_lookup_none (p : Preferences) (events : List Event) (key : String)
    (h : p.interests.lookup key = none) :
    (updateEventsLoop p events).interests.lookup key = none := by
  induction events generalizing p with
  | nil => exact h
  | cons event rest ih =>
    unfold updateEventsLoop
    exact ih _ (updateTagsLoop_lookup_none p event.tags key h)

theorem updateUserInterests_single_tag (user : User) (event : Event) (tag : String)
    (htags : event.tags = [tag]) (w : Int)
    (hw : user.preferences.interests.lookup tag = some w) :
    (updateUserInterests user [event]).preferences.interests.lookup tag =
      some (wrapInt (w + 1)) := by
  simp only [updateUserInterests, updateEventsLoop, htags, updateTagsLoop]
  rw [setInterestWeight_lookup, hw, getInterestWeight_of_lookup hw]
  simp

theorem repeated_update_lookup (calls : List Event) (tag : String)
    (hcalls : ∀ event ∈ calls, event.tags = [tag]) (user : User) (w : Int)
    (hw : user.preferences.interests.lookup tag = some w)
    (h0 : INT_MIN ≤ w) (h1 : w + calls.length ≤ INT_MAX) :
    (calls.foldl (fun u event => updateUserInterests u [event])
        user).preferences.interests.lookup tag = some (w + calls.length) := by
  induction calls generalizing user w with
  | nil => simpa using hw
  | cons event rest ih =>
    have hstep := updateUserInterests_single_tag user event tag
      (hcalls event (List.mem_cons_self _ _)) w hw
    have hlen : ((event :: rest).length : Int) = (rest.length : Int) + 1 := by
      simp
    rw [hlen] at h1
    rw [wrapInt_of_range (w + 1) (by omega) (by omega)] at hstep
    rw [List.foldl_cons,
      ih (fun e he => hcalls e (List.mem_cons_of_mem _ he)) _ (w + 1) hstep (by omega)
        (by omega), hlen]
    congr 1
    ring

/-- C14 (as stated, refuted): for a user without the interest jazz, one call of
`updateUserInterests` with an event whose only tag is jazz does not raise
`getInterestWeight("jazz")` by 1; it stays 0. -/
theorem reinforcement_absent_key_counterexample :
    ¬ (([jazzNight].foldl (fun u event => updateUserInterests u [event])
          sampleUser).preferences.getInterestWeight "jazz" =
        sampleUser.preferences.getInterestWeight "jazz" + ([jazzNight].length : Int)) := by
  decide

/-- C14 (amended): reinforcement monotonicity for a known interest. If jazz is a key of
the interests of the user, with a weight `w` such that `w + N` does not exceed `INT_MAX`,
then `N` calls of `updateUserInterests`, each with a single attended event whose only tag
is jazz, increase `getInterestWeight("jazz")` by exactly `N`. -/
theorem updateUserInterests_reinforcement (user : User) (calls : List Event)
    (hcalls : ∀ event ∈ calls, event.tags = ["jazz"])
    (hkey : (user.preferences.interests.lookup "jazz").isSome = true)
    (h0 : INT_MIN ≤ user.preferences.getInterestWeight "jazz")
    (h1 : user.preferences.getInterestWeight "jazz" + (calls.length : Int) ≤ INT_MAX) :
    (calls.foldl (fun u event => updateUserInterests u [event])
        user).preferences.getInterestWeight "jazz" =
      user.preferences.getInterestWeight "jazz" + (calls.length : Int) := by
  obtain ⟨w, hw⟩ := Option.isSome_iff_exists.mp hkey
  rw [getInterestWeight_of_lookup hw] at h0 h1 ⊢
  exact getInterestWeight_of_lookup (repeated_update_lookup calls "jazz" hcalls user w hw h0 h1)

theorem updateUserInterests_reinforcement_witness :
    (∀ event ∈ [jazzNight, jazzNight, jazzNight], event.tags = ["jazz"]) ∧
      (jazzFan.preferences.interests.lookup "jazz").isSome = true ∧
      INT_MIN ≤ jazzFan.preferences.getInterestWeight "jazz" ∧
      jazzFan.preferences.getInterestWeight "jazz" +
        (([jazzNight, jazzNight, jazzNight] : List Event).length : Int) ≤ INT_MAX ∧
      ([jazzNight, jazzNight, jazzNight].foldl (fun u event => updateUserInterests u [event])
          jazzFan).preferences.getInterestWeight "jazz" =
        jazzFan.preferences.getInterestWeight "jazz" +
          (([jazzNight, jazzNight, jazzNight] : List Event).length : Int) :=
  ⟨by decide, by decide, by decide, by decide,
    updateUserInterests_reinforcement jazzFan [jazzNight, jazzNight, jazzNight] (by decide)
      (by decide) (by decide) (by decide)⟩

/-- C15 (as stated, refuted): jazz is not a key of the interests of the scenario user and
`jazzNight` carries the tag jazz once, yet after `updateUserInterests` with that event
`getInterestWeight("jazz")` is not 1. -/
theorem implicit_add_counterexample :
    scenarioUser.preferences.interests.lookup "jazz" = none ∧
      jazzNight.tags.count "jazz" = 1 ∧
      ¬ ((updateUserInterests scenarioUser [jazzNight]).preferences.getInterestWeight "jazz"
        = 1) := by
  decide

/-- C15 (amended): no implicit add on reinforcement. If a tag is not a key of the interests
of the user and `updateUserInterests` is called with one attended event carrying that tag
once, then afterwards the tag is still not a key and `getInterestWeight(tag) == 0`. -/
theorem updateUserInterests_absent_tag (user : User) (event : Event) (tag : String)
    (habsent : user.preferences.interests.lookup tag = none)
    (_hcarry : event.tags.count tag = 1) :
    (updateUserInterests user [event]).preferences.interests.lookup tag = none ∧
      (updateUserInterests user [event]).preferences.getInterestWeight tag = 0 := by
  have h : (updateUserInterests user [event]).preferences.interests.lookup tag = none :=
    updateEventsLoop_lookup_none user.preferences [event] tag habsent
  exact ⟨h, getInterestWeight_of_lookup_none h⟩

theorem updateUserInterests_absent_tag_witness :
    sampleUser.preferences.interests.lookup "jazz" = none ∧
      jazzNight.tags.count "jazz" = 1 ∧
      ((updateUserInterests sampleUser [jazzNight]).preferences.interests.lookup "jazz" =
          none ∧
        (updateUserInterests sampleUser [jazzNight]).preferences.getInterestWeight "jazz" =
          0) :=
  ⟨by decide, by decide,
    updateUserInterests_absent_tag sampleUser jazzNight "jazz" (by decide) (by decide)⟩

/-! ## Enrichment -/

theorem collectRecommendations_reasoning {S : Type} (score : Event → Preferences → S)
    (preferences : Preferences) (sch : Schedule) (events : List Event) :
    ∀ r ∈ collectRecommendations score preferences sch events,
      r.reasoning = "Basic compatibility score" := by
  intro r hr
  rw [collectRecommendations_eq] at hr
  obtain ⟨ev, -, rfl⟩ := List.mem_map.mp hr
  rfl

theorem applyEnrichment_of_failure {S : Type} (ai : FutureOutcome)
    (hfail : ai = FutureOutcome.exception ∨
      ∃ result, ai = FutureOutcome.value result ∧ result.success = false)
    (l : List (EventRecommendation S)) : applyEnrichment ai l = some l := by
  rcases hfail with rfl | ⟨result, rfl, hres⟩
  · rfl
  · simp [applyEnrichment, hres]

/-- C16 (as stated, refuted): when `get()` raises an exception that is not derived from
`std::exception`, the handler `catch (const std::exception&)` does not catch it and
`recommendEvents` does not return: there is no returned list, with or without the
placeholder reasoning. -/
theorem recommendEvents_foreign_exception_counterexample :
    ¬ ∃ result, recommendEvents referenceSort durationScore FutureOutcome.foreignException
        sampleUser [review, demo] sampleSchedule 5 = some result ∧
      ∀ r ∈ result, r.reasoning = "Basic compatibility score" := by
  rintro ⟨result, hres, -⟩
  have hnone : (none : Option (List (EventRecommendation Int))) = some result := hres
  cases hnone

/-- C16 (amended): enrichment failure fallback. If the result of the reasoning
collaborator has `success == false`, or `get()` on its future raises an exception derived
from `std::exception`, `recommendEvents` still returns normally: it returns the sorted and
truncated provisional list, and every returned recommendation has the reasoning
"Basic compatibility score". -/
theorem recommendEvents_failure_fallback {S : Type} [LinearOrder S] (sortFn : SortFn)
    (hs : StdSortContract sortFn) (calculateEventScore : Event → Preferences → S)
    (ai_response : FutureOutcome) (user : User) (available_events : List Event)
    (user_schedule : Schedule) (max_recommendations : Int)
    (hfail : ai_response = FutureOutcome.exception ∨
      ∃ result, ai_response = FutureOutcome.value result ∧ result.success = false) :
    ∃ result, recommendEvents sortFn calculateEventScore ai_response user available_events
        user_schedule max_recommendations = some result ∧
      result = truncateRecommendations
        (sortFn (EventRecommendation S) scoreGreater
          (collectRecommendations calculateEventScore user.preferences user_schedule
            available_events)) max_recommendations ∧
      ∀ r ∈ result, r.reasoning = "Basic compatibility score" := by
  refine ⟨_, ?_, rfl, fun r hr => ?_⟩
  · unfold recommendEvents
    exact applyEnrichment_of_failure ai_response hfail _
  · rw [truncateRecommendations_eq_take] at hr
    have hp := hs.perm (EventRecommendation S) scoreGreater
      (collectRecommendations calculateEventScore user.preferences user_schedule
        available_events) strictWeak_scoreGreater
    exact collectRecommendations_reasoning _ _ _ _ r (hp.mem_iff.mp (List.mem_of_mem_take hr))

theorem recommendEvents_failure_fallback_witness :
    StdSortContract referenceSort ∧
      (FutureOutcome.value ⟨false, "", "Failed to initialize CURL"⟩ = FutureOutcome.exception ∨
        ∃ result, FutureOutcome.value ⟨false, "", "Failed to initialize CURL"⟩ =
          FutureOutcome.value result ∧ result.success = false) ∧
      ∃ result, recommendEvents referenceSort durationScore
          (FutureOutcome.value ⟨false, "", "Failed to initialize CURL"⟩) sampleUser
          [review, demo, mkEvent "gala" 20 30] sampleSchedule 2 = some result ∧
        result = truncateRecommendations
          (referenceSort (EventRecommendation Int) scoreGreater
            (collectRecommendations durationScore sampleUser.preferences sampleSchedule
              [review, demo, mkEvent "gala" 20 30])) 2 ∧
        ∀ r ∈ result, r.reasoning = "Basic compatibility score" :=
  ⟨referenceSort_contract, Or.inr ⟨_, rfl, rfl⟩,
    recommendEvents_failure_fallback referenceSort referenceSort_contract durationScore
      (FutureOutcome.value ⟨false, "", "Failed to initialize CURL"⟩) sampleUser
      [review, demo, mkEvent "gala" 20 30] sampleSchedule 2 (Or.inr ⟨_, rfl, rfl⟩)⟩

/-- C17: enrichment success. If the result of the reasoning collaborator has
`success == true` with content `c`, `recommendEvents` returns a list and every returned
recommendation has the reasoning "AI-enhanced reasoning: " followed by the first
`min(100, length of c)` characters of `c`, the same string for all recommendations. -/
theorem recommendEvents_success_reasoning {S : Type} [LinearOrder S] (sortFn : SortFn)
    (calculateEventScore : Event → Preferences → S) (result : AIResponse) (user : User)
    (available_events : List Event) (user_schedule : Schedule) (max_recommendations : Int)
    (hsuccess : result.success = true) :
    ∃ recommendations, recommendEvents sortFn calculateEventScore (FutureOutcome.value result)
        user available_events user_schedule max_recommendations = some recommendations ∧
      ∀ r ∈ recommendations,
        r.reasoning = "AI-enhanced reasoning: " ++
          String.mk (result.content.data.take (min 100 result.content.length)) := by
  refine ⟨(truncateRecommendations
      (sortFn (EventRecommendation S) scoreGreater
        (collectRecommendations calculateEventScore user.preferences user_schedule
          available_events)) max_recommendations).map
      (fun rec => ⟨rec.event, rec.score,
        "AI-enhanced reasoning: " ++ result.content.take 100⟩), ?_, fun r hr => ?_⟩
  · unfold recommendEvents
    simp only [applyEnrichment, hsuccess, if_true]
  · obtain ⟨r0, -, rfl⟩ := List.mem_map.mp hr
    show "AI-enhanced reasoning: " ++ result.content.take 100 = _
    rw [String.take_eq]
    congr 2
    rcases Nat.le_total 100 result.content.length with h | h
    · rw [Nat.min_eq_left h]
    · rw [Nat.min_eq_right h, List.take_of_length_le h]
      exact (List.take_of_length_le (le_refl _)).symm

theorem recommendEvents_success_reasoning_witness :
    (⟨true, "ranked by length", ""⟩ : AIResponse).success = true ∧
      ∃ recommendations, recommendEvents referenceSort durationScore
          (FutureOutcome.value ⟨true, "ranked by length", ""⟩) sampleUser
          [review, demo, mkEvent "gala" 20 30] sampleSchedule 2 = some recommendations ∧
        ∀ r ∈ recommendations,
          r.reasoning = "AI-enhanced reasoning: " ++
            String.mk (("ranked by length" : String).data.take
              (min 100 ("ranked by length" : String).length)) :=
  ⟨rfl,
    recommendEvents_success_reasoning referenceSort durationScore
      ⟨true, "ranked by length", ""⟩ sampleUser [review, demo, mkEvent "gala" 20 30]
      sampleSchedule 2 rfl⟩

theorem getEventsInRangeLoop_eq (start end_ : Int) (events result : List Event) :
    getEventsInRangeLoop start end_ events result =
      result ++ events.filter
        (fun x => decide (x.start_time ≥ start ∧ x.end_time ≤ end_)) := by
  induction events generalizing result with
  | nil => simp [getEventsInRangeLoop]
  | cons ev rest ih =>
    unfold getEventsInRangeLoop
    by_cases h : ev.start_time ≥ start ∧ ev.end_time ≤ end_
    · rw [if_pos h, ih, List.filter_cons_of_pos (by simpa using h)]
      simp
    · rw [if_neg h, ih, List.filter_cons_of_neg (by simpa using h)]

/-- C19: `getEventsInRange(s, e)` returns exactly the stored events `x` with
`x.start >= s` and `x.end <= e`, in stored order. In particular a stored event that
overlaps `[s, e)` without being fully contained in it is not returned, although
`hasConflict` reports an overlap for every query event spanning `[s, e)`. -/
theorem getEventsInRange_contained (sch : Schedule) (s e : Int) :
    sch.getEventsInRange s e =
        sch.getEvents.filter (fun x => decide (x.start_time ≥ s ∧ x.end_time ≤ e)) ∧
      ∀ x ∈ sch.getEvents, (s < x.end_time ∧ e > x.start_time) →
        ¬ (x.start_time ≥ s ∧ x.end_time ≤ e) →
        x ∉ sch.getEventsInRange s e ∧
          ∀ q : Event, q.start_time = s → q.end_time = e → sch.hasConflict q = true := by
  have heq : sch.getEventsInRange s e =
      sch.getEvents.filter (fun x => decide (x.start_time ≥ s ∧ x.end_time ≤ e)) := by
    unfold Schedule.getEventsInRange Schedule.getEvents
    rw [getEventsInRangeLoop_eq]
    rfl
  refine ⟨heq, fun x hx hov hnc => ⟨?_, fun q hqs hqe => ?_⟩⟩
  · rw [heq, List.mem_filter]
    rintro ⟨-, hin⟩
    exact hnc (by simpa using hin)
  · rw [hasConflict_iff_exists_overlap]
    exact ⟨x, hx, by rw [hqs]; exact hov.1, by rw [hqe]; exact hov.2⟩

theorem getEventsInRange_contained_witness :
    lunch ∈ sampleSchedule.getEvents ∧
      ((9 : Int) < lunch.end_time ∧ (12 : Int) > lunch.start_time) ∧
      ¬ (lunch.start_time ≥ 9 ∧ lunch.end_time ≤ 12) ∧
      (mkEvent "query" 9 12).start_time = 9 ∧ (mkEvent "query" 9 12).end_time = 12 ∧
      sampleSchedule.getEventsInRange 9 12 = [standup] ∧
      lunch ∉ sampleSchedule.getEventsInRange 9 12 ∧
      sampleSchedule.hasConflict (mkEvent "query" 9 12) = true :=
  ⟨by decide, by decide, by decide, rfl, rfl,
    (getEventsInRange_contained sampleSchedule 9 12).1.trans (by decide),
    ((getEventsInRange_contained sampleSchedule 9 12).2 lunch (by decide) (by decide)
      (by decide)).1,
    ((getEventsInRange_contained sampleSchedule 9 12).2 lunch (by decide) (by decide)
      (by decide)).2 (mkEvent "query" 9 12) rfl rfl⟩

theorem interestScoreLoop_eq (interests : List (String × Int)) (tags : List String)
    (total_score : Rat) (matching_tags : Int) :
    interestScoreLoop interests tags total_score matching_tags =
      (total_score + ((tags.filterMap (fun tag => interests.lookup tag)).sum : Int),
        matching_tags + ((tags.filterMap (fun tag => interests.lookup tag)).length : Int)) := by
  induction tags generalizing total_score matching_tags with
  | nil => simp [interestScoreLoop]
  | cons tag rest ih =>
    unfold interestScoreLoop
    cases hl : interests.lookup tag with
    | none =>
      simp only [ih, List.filterMap_cons, hl]
    | some weight =>
      simp only [ih, List.filterMap_cons, hl, List.sum_cons, List.length_cons]
      refine Prod.ext ?_ ?_
      · simp only
        push_cast
        ring
      · simp only
        push_cast
        ring

/-- C21: the interest score of an event is the arithmetic mean of
`preferences.interests[tag]` over the tags of the event that are keys of `interests`, each
occurrence of a duplicated tag counted separately and absent tags counted nowhere; it is 0
when no tag of the event is a key.  Arithmetic is exact. -/
theorem calculateInterestScore_eq_mean (event : Event) (preferences : Preferences) :
    calculateInterestScore event preferences = interestScoreSpec event preferences ∧
      ((∀ tag ∈ event.tags, preferences.interests.lookup tag = none) →
        calculateInterestScore event preferences = 0) := by
  have heq : calculateInterestScore event preferences = interestScoreSpec event preferences := by
    unfold calculateInterestScore interestScoreSpec matchingWeights
    rw [interestScoreLoop_eq]
    simp only [zero_add]
    by_cases hnil : event.tags.filterMap (fun tag => preferences.interests.lookup tag) = []
    · simp [hnil]
    · have hpos : 0 < (event.tags.filterMap
          (fun tag => preferences.interests.lookup tag)).length :=
        List.length_pos.mpr hnil
      have hpos2 : ((event.tags.filterMap
          (fun tag => preferences.interests.lookup tag)).length : Int) > 0 := by
        exact_mod_cast hpos
      rw [if_pos hpos2, if_neg hnil]
      push_cast
      rfl
  refine ⟨heq, fun hnone => ?_⟩
  rw [heq]
  unfold interestScoreSpec matchingWeights
  rw [if_pos]
  rw [List.filterMap_eq_nil_iff]
  exact hnone

theorem calculateInterestScore_eq_mean_witness :
    calculateInterestScore festival nightOwl = (2 + 5 + 2) / 3 ∧
      (∀ tag ∈ eventB.tags, nightOwl.interests.lookup tag = none) ∧
      calculateInterestScore eventB nightOwl = 0 :=
  ⟨(calculateInterestScore_eq_mean festival nightOwl).1.trans (by
      simp [interestScoreSpec, matchingWeights, festival, nightOwl, List.lookup]
      norm_num),
    by decide,
    (calculateInterestScore_eq_mean eventB nightOwl).2 (by decide)⟩

theorem timeSlotLoop_eq (hour : Int) (slots : List (Int × Int)) :
    timeSlotLoop hour slots =
      if ∃ window ∈ slots, window.1 ≤ hour ∧ hour ≤ window.2 then 1.0 else 0.5 := by
  induction slots with
  | nil => simp [timeSlotLoop]
  | cons slot rest ih =>
    unfold timeSlotLoop
    by_cases h : hour ≥ slot.1 ∧ hour ≤ slot.2
    · rw [if_pos h, if_pos]
      exact ⟨slot, List.mem_cons_self _ _, h.1, h.2⟩
    · rw [if_neg h, ih]
      by_cases hr : ∃ window ∈ rest, window.1 ≤ hour ∧ hour ≤ window.2
      · rw [if_pos hr, if_pos]
        obtain ⟨w, hw, hw1⟩ := hr
        exact ⟨w, List.mem_cons_of_mem _ hw, hw1⟩
      · rw [if_neg hr, if_neg]
        rintro ⟨w, hw, hw1⟩
        rcases List.mem_cons.mp hw with rfl | hw
        · exact h ⟨hw1.1, hw1.2⟩
        · exact hr ⟨w, hw, hw1⟩

/-- C22: the time score as a function of the local start hour `h` of the event and of the
preferred time windows: it is 1.0 when the window list is empty; otherwise it is 1.0 if
some window `(a, b)` has `a <= h <= b` and 0.5 if no window does.  A wrap-around window,
with `a > b`, matches no hour: preferences whose only windows are wrap-around ones score
0.5 at every hour. -/
theorem calculateTimePreferenceScore_eq (localHour : Int → Int) (event : Event)
    (preferences : Preferences) :
    calculateTimePreferenceScore localHour event preferences =
        timeScoreSpec (localHour event.start_time) preferences.preferred_time_slots ∧
      (preferences.preferred_time_slots ≠ [] →
        (∀ window ∈ preferences.preferred_time_slots, window.1 > window.2) →
        calculateTimePreferenceScore localHour event preferences = 0.5) := by
  have heq : calculateTimePreferenceScore localHour event preferences =
      timeScoreSpec (localHour event.start_time) preferences.preferred_time_slots := by
    unfold calculateTimePreferenceScore timeScoreSpec
    simp only [List.isEmpty_iff]
    by_cases hnil : preferences.preferred_time_slots = []
    · rw [if_pos hnil, if_pos hnil]
    · rw [if_neg hnil, if_neg hnil, timeSlotLoop_eq]
  refine ⟨heq, fun hne hwrap => ?_⟩
  rw [heq]
  unfold timeScoreSpec
  rw [if_neg hne, if_neg]
  rintro ⟨w, hw, hw1, hw2⟩
  have := hwrap w hw
  omega

theorem calculateTimePreferenceScore_eq_witness :
    calculateTimePreferenceScore hourOfDay eventA scenarioPreferences = 1.0 ∧
      nightOwl.preferred_time_slots ≠ [] ∧
      (∀ window ∈ nightOwl.preferred_time_slots, window.1 > window.2) ∧
      calculateTimePreferenceScore hourOfDay (mkEvent "late show" 23 24) nightOwl = 0.5 :=
  ⟨(calculateTimePreferenceScore_eq hourOfDay eventA scenarioPreferences).1.trans (by
      simp [timeScoreSpec, scenarioPreferences, eventA, hourOfDay]),
    by decide, by decide,
    (calculateTimePreferenceScore_eq hourOfDay (mkEvent "late show" 23 24) nightOwl).2
      (by decide) (by decide)⟩

/-! ## setInterestWeight and the effect of updateUserInterests on every tag -/

/-- C23: `setInterestWeight(tag, w)` is a no-op when `tag` is not a key of `interests`
(the preferences are unchanged and `getInterestWeight(tag)` still returns 0); when `tag`
is a key, afterwards `getInterestWeight(tag) == w`, and every other tag keeps its entry
and its weight. -/
theorem setInterestWeight_frame (p : Preferences) (tag : String) (w : Int) :
    (p.interests.lookup tag = none →
        p.setInterestWeight tag w = p ∧ (p.setInterestWeight tag w).getInterestWeight tag = 0) ∧
      ((p.interests.lookup tag).isSome = true →
        (p.setInterestWeight tag w).getInterestWeight tag = w ∧
          ∀ other : String, other ≠ tag →
            (p.setInterestWeight tag w).interests.lookup other = p.interests.lookup other ∧
              (p.setInterestWeight tag w).getInterestWeight other =
                p.getInterestWeight other) := by
  constructor
  · intro hnone
    have hsame : p.setInterestWeight tag w = p := by
      unfold Preferences.setInterestWeight
      rw [hnone]
      rfl
    rw [hsame]
    exact ⟨rfl, getInterestWeight_of_lookup_none hnone⟩
  · intro hsome
    obtain ⟨w0, hw0⟩ := Option.isSome_iff_exists.mp hsome
    constructor
    · apply getInterestWeight_of_lookup
      rw [setInterestWeight_lookup, hw0]
      simp
    · intro other hother
      have hl : (p.setInterestWeight tag w).interests.lookup other =
          p.interests.lookup other := by
        rw [setInterestWeight_lookup]
        cases p.interests.lookup other <;> simp [hother]
      refine ⟨hl, ?_⟩
      unfold Preferences.getInterestWeight
      rw [hl]

theorem setInterestWeight_frame_witness :
    scenarioPreferences.interests.lookup "jazz" = none ∧
      scenarioPreferences.setInterestWeight "jazz" 7 = scenarioPreferences ∧
      (nightOwl.interests.lookup "jazz").isSome = true ∧
      (nightOwl.setInterestWeight "jazz" 7).getInterestWeight "jazz" = 7 ∧
      "music" ≠ "jazz" ∧
      (nightOwl.setInterestWeight "jazz" 7).getInterestWeight "music" =
        nightOwl.getInterestWeight "music" :=
  ⟨by decide,
    ((setInterestWeight_frame scenarioPreferences "jazz" 7).1 (by decide)).1,
    by decide,
    ((setInterestWeight_frame nightOwl "jazz" 7).2 (by decide)).1,
    by decide,
    (((setInterestWeight_frame nightOwl "jazz" 7).2 (by decide)).2 "music" (by decide)).2⟩

theorem updateTagsLoop_lookup_isSome (p : Preferences) (tags : List String) (key : String) :
    ((updateTagsLoop p tags).interests.lookup key).isSome =
      (p.interests.lookup key).isSome := by
  induction tags generalizing p with
  | nil => rfl
  | cons tag rest ih =>
    unfold updateTagsLoop
    rw [ih, setInterestWeight_lookup]
    cases p.interests.lookup key <;> rfl

theorem updateEventsLoop_lookup_isSome (p : Preferences) (events : List Event)
    (key : String) :
    ((updateEventsLoop p events).interests.lookup key).isSome =
      (p.interests.lookup key).isSome := by
  induction events generalizing p with
  | nil => rfl
  | cons event rest ih =>
    unfold updateEventsLoop
    rw [ih, updateTagsLoop_lookup_isSome]

theorem updateTagsLoop_lookup_some (tags : List String) (key : String) (p : Preferences)
    (w : Int) (hw : p.interests.lookup key = some w) (h0 : INT_MIN ≤ w)
    (h1 : w + (tags.count key : Int) ≤ INT_MAX) :
    (updateTagsLoop p tags).interests.lookup key = some (w + (tags.count key : Int)) := by
  induction tags generalizing p w with
  | nil => simpa using hw
  | cons tag rest ih =>
    unfold updateTagsLoop
    by_cases hk : tag = key
    · subst hk
      have hcount : (((tag :: rest).count tag : Nat) : Int) = (rest.count tag : Int) + 1 := by
        simp
      rw [hcount] at h1 ⊢
      have hstep : (p.setInterestWeight tag
          (wrapInt (p.getInterestWeight tag + 1))).interests.lookup tag = some (w + 1) := by
        rw [setInterestWeight_lookup, hw, getInterestWeight_of_lookup hw,
          wrapInt_of_range (w + 1) (by omega) (by omega)]
        simp
      rw [ih _ (w + 1) hstep (by omega) (by omega)]
      congr 1
      ring
    · have hcount : (tag :: rest).count key = rest.count key := by
        rw [List.count_cons_of_ne (Ne.symm hk)]
      rw [hcount] at h1 ⊢
      have hstep : (p.setInterestWeight tag
          (wrapInt (p.getInterestWeight tag + 1))).interests.lookup key = some w := by
        rw [setInterestWeight_lookup, hw]
        simp [Ne.symm hk]
      exact ih _ w hstep h0 h1

theorem updateEventsLoop_lookup_some (events : List Event) (key : String) (p : Preferences)
    (w : Int) (hw : p.interests.lookup key = some w) (h0 : INT_MIN ≤ w)
    (h1 : w + (tagOccurrences key events : Int) ≤ INT_MAX) :
    (updateEventsLoop p events).interests.lookup key =
      some (w + (tagOccurrences key events : Int)) := by
  induction events generalizing p w with
  | nil => simpa [tagOccurrences] using hw
  | cons event rest ih =>
    have hocc : ((tagOccurrences key (event :: rest) : Nat) : Int) =
        (event.tags.count key : Int) + (tagOccurrences key rest : Int) := by
      simp [tagOccurrences]
    rw [hocc] at h1 ⊢
    unfold updateEventsLoop
    have hstep := updateTagsLoop_lookup_some event.tags key p w hw h0 (by omega)
    rw [ih _ _ hstep (by omega) (by omega)]
    congr 1
    ring

/-- C24 (as stated, refuted): jazz is a key with weight `INT_MAX` and occurs once in the
attended events, yet the weight afterwards is not the weight before plus 1: the `int`
addition `current_weight + 1` leaves the range of `int`. -/
theorem reinforcement_overflow_counterexample :
    (maxedFan.preferences.interests.lookup "jazz").isSome = true ∧
      tagOccurrences "jazz" [jazzNight] = 1 ∧
      ¬ ((updateUserInterests maxedFan [jazzNight]).preferences.getInterestWeight "jazz" =
        maxedFan.preferences.getInterestWeight "jazz" +
          (tagOccurrences "jazz" [jazzNight] : Int)) := by
  decide

/-- C24 (amended): `updateUserInterests` never changes which tags are keys of the
interests of the user. For every tag `t` that was a key and whose weight before plus the
number of occurrences of `t`, with multiplicity, across the tag lists of all attended
events does not exceed `INT_MAX`, the weight afterwards equals that sum; every tag that
was not a key is still not a key afterwards. -/
theorem updateUserInterests_keys_and_weights (user : User) (attended_events : List Event) :
    (∀ t : String,
        ((updateUserInterests user attended_events).preferences.interests.lookup t).isSome =
          (user.preferences.interests.lookup t).isSome) ∧
      (∀ t : String, (user.preferences.interests.lookup t).isSome = true →
        INT_MIN ≤ user.preferences.getInterestWeight t →
        user.preferences.getInterestWeight t + (tagOccurrences t attended_events : Int) ≤
          INT_MAX →
        (updateUserInterests user attended_events).preferences.getInterestWeight t =
          user.preferences.getInterestWeight t + (tagOccurrences t attended_events : Int)) ∧
      (∀ t : String, user.preferences.interests.lookup t = none →
        (updateUserInterests user attended_events).preferences.interests.lookup t = none) := by
  refine ⟨fun t => ?_, fun t hkey h0 h1 => ?_, fun t hnone => ?_⟩
  · exact updateEventsLoop_lookup_isSome user.preferences attended_events t
  · obtain ⟨w, hw⟩ := Option.isSome_iff_exists.mp hkey
    rw [getInterestWeight_of_lookup hw] at h0 h1 ⊢
    exact getInterestWeight_of_lookup
      (updateEventsLoop_lookup_some attended_events t user.preferences w hw h0 h1)
  · exact updateEventsLoop_lookup_none user.preferences attended_events t hnone

theorem updateUserInterests_keys_and_weights_witness :
    (jazzFan.preferences.interests.lookup "jazz").isSome = true ∧
      INT_MIN ≤ jazzFan.preferences.getInterestWeight "jazz" ∧
      jazzFan.preferences.getInterestWeight "jazz" +
        (tagOccurrences "jazz" [festival, jazzNight] : Int) ≤ INT_MAX ∧
      tagOccurrences "jazz" [festival, jazzNight] = 3 ∧
      (updateUserInterests jazzFan [festival, jazzNight]).preferences.getInterestWeight "jazz" =
        jazzFan.preferences.getInterestWeight "jazz" +
          (tagOccurrences "jazz" [festival, jazzNight] : Int) ∧
      jazzFan.preferences.interests.lookup "music" = none ∧
      (updateUserInterests jazzFan [festival, jazzNight]).preferences.interests.lookup "music" =
        none :=
  ⟨by decide, by decide, by decide, by decide,
    (updateUserInterests_keys_and_weights jazzFan [festival, jazzNight]).2.1 "jazz"
      (by decide) (by decide) (by decide),
    by decide,
    (updateUserInterests_keys_and_weights jazzFan [festival, jazzNight]).2.2 "music"
      (by decide)⟩

/-! ## Free slots are free -/

theorem remainingSlots_clear (start end_ : Int) (events : List Event)
    (hsorted : events.Pairwise (fun a b => a.start_time ≤ b.start_time))
    (current_time : Int) (hc : start ≤ current_time) :
    ∀ p ∈ remainingSlots start end_ events current_time,
      ∀ x ∈ events, x.end_time ≤ p.1 ∨ p.2 ≤ x.start_time := by
  induction events generalizing current_time with
  | nil =>
    intro p _ x hx
    cases hx
  | cons ev rest ih =>
    rw [List.pairwise_cons] at hsorted
    obtain ⟨hfirst, hrest⟩ := hsorted
    intro p hp x hx
    simp only [remainingSlots] at hp
    by_cases h1 : ev.start_time ≥ end_
    · -- the sweep stops: the closing gap ends at or before every remaining start
      rw [if_pos h1] at hp
      have hp2 : p.2 ≤ end_ := by
        split_ifs at hp
        · simp only [List.mem_singleton] at hp
          rw [hp]
        · cases hp
      right
      rcases List.mem_cons.mp hx with rfl | hx
      · omega
      · have := hfirst x hx
        omega
    · rw [if_neg h1] at hp
      by_cases h2 : ev.end_time ≤ start
      · -- the event is skipped: it ends before the cursor
        rw [if_pos h2] at hp
        rcases List.mem_cons.mp hx with rfl | hx
        · left
          have := (remainingSlots_bounds start end_ rest current_time p hp).1
          omega
        · exact ih hrest current_time hc p hp x hx
      · rw [if_neg h2] at hp
        have hmax1 := le_max_left current_time ev.end_time
        have hmax2 := le_max_right current_time ev.end_time
        rcases List.mem_append.mp hp with hp | hp
        · -- the gap in front of the event
          have hp2 : p.2 = ev.start_time := by
            split_ifs at hp
            · simp only [List.mem_singleton] at hp
              rw [hp]
            · cases hp
          right
          rcases List.mem_cons.mp hx with rfl | hx
          · omega
          · have := hfirst x hx
            omega
        · -- a later slot: it starts at or after the end of the event
          rcases List.mem_cons.mp hx with rfl | hx
          · left
            have := (remainingSlots_bounds start end_ rest _ p hp).1
            omega
          · exact ih hrest _ (le_trans hc hmax1) p hp x hx

/-- C25: free slots are really free. For every schedule whose events are sorted by start
time, every query range `(s, e)` and every pair `(gap_start, gap_end)` returned by
`getFreeTimeSlots(s, e)`, any event `q` with `gap_start <= q.start <= q.end <= gap_end`
has `hasConflict(q) == false` on that schedule. -/
theorem getFreeTimeSlots_no_conflict (sch : Schedule) (s e : Int)
    (hsorted : sch.getEvents.Pairwise (fun a b => a.start_time ≤ b.start_time))
    (p : Int × Int) (hp : p ∈ sch.getFreeTimeSlots s e) (q : Event)
    (hq1 : p.1 ≤ q.start_time) (_hq2 : q.start_time ≤ q.end_time)
    (hq3 : q.end_time ≤ p.2) :
    sch.hasConflict q = false := by
  rw [getFreeTimeSlots_eq] at hp
  have hclear := remainingSlots_clear s e sch.events hsorted s (le_refl s) p hp
  rw [← Bool.not_eq_true, hasConflict_iff_exists_overlap]
  rintro ⟨x, hx, hx1, hx2⟩
  rcases hclear x hx with h | h <;> omega

theorem getFreeTimeSlots_no_conflict_witness :
    sampleSchedule.getEvents.Pairwise (fun a b => a.start_time ≤ b.start_time) ∧
      ((10 : Int), (11 : Int)) ∈ sampleSchedule.getFreeTimeSlots 8 20 ∧
      (10 : Int) ≤ (mkEvent "coffee" 10 11).start_time ∧
      (mkEvent "coffee" 10 11).start_time ≤ (mkEvent "coffee" 10 11).end_time ∧
      (mkEvent "coffee" 10 11).end_time ≤ (11 : Int) ∧
      sampleSchedule.hasConflict (mkEvent "coffee" 10 11) = false :=
  ⟨by decide, by decide, by decide, by decide, by decide,
    getFreeTimeSlots_no_conflict sampleSchedule 8 20 (by decide) (10, 11) (by decide)
      (mkEvent "coffee" 10 11) (by decide) (by decide) (by decide)⟩

end Masterbot
